import Mathlib

/-!
Shallow embedding of the go-rate-limit repository (package `ratelimit`,
file `rate_limiter.go`) together with the parts of the Go standard
library it relies on for client-identity resolution
(`net.SplitHostPort`, `net/netip.ParseAddr`, `netip.Addr.String`).

Strings are modelled as `List Char`; machine integers (`int`, `int64`,
`time.Duration`) as `Int` (overflow is irrelevant at the values the
limiter manipulates); Go's truncated integer division as `Int.tdiv`.
Time is an `Int` nanosecond count.  The concurrent code is modelled
sequentially: each `Allow` call and each cleanup tick is one atomic
step on the store.
-/

/-- Go `unicode.IsSpace`: the White_Space code points recognised by
`strings.TrimSpace` and `bytes.TrimSpace`. -/
def goIsSpace (c : Char) : Bool :=
  decide (c.toNat = 9 ∨ c.toNat = 10 ∨ c.toNat = 11 ∨ c.toNat = 12 ∨ c.toNat = 13 ∨
    c.toNat = 32 ∨ c.toNat = 0x85 ∨ c.toNat = 0xA0 ∨ c.toNat = 0x1680 ∨
    (0x2000 ≤ c.toNat ∧ c.toNat ≤ 0x200A) ∨ c.toNat = 0x2028 ∨ c.toNat = 0x2029 ∨
    c.toNat = 0x202F ∨ c.toNat = 0x205F ∨ c.toNat = 0x3000)

/-- Go `strings.TrimSpace` (and `bytes.TrimSpace`): drop leading and
trailing white space. -/
def trimSpaceL (s : List Char) : List Char :=
  ((s.dropWhile goIsSpace).reverse.dropWhile goIsSpace).reverse

/-- Decimal digit test, Go `c >= '0' && c <= '9'` (byte compare). -/
def isDigitC (c : Char) : Bool :=
  decide (48 ≤ c.toNat ∧ c.toNat ≤ 57)

/-- Hex digit test, as in `netip`'s IPv6 group scanner
(`0-9`, `a-f`, `A-F`, byte compares). -/
def isHexDigitC (c : Char) : Bool :=
  decide ((48 ≤ c.toNat ∧ c.toNat ≤ 57) ∨ (97 ≤ c.toNat ∧ c.toNat ≤ 102) ∨
    (65 ≤ c.toNat ∧ c.toNat ≤ 70))

/-- Value of a hex digit, as computed by `netip`'s group scanner
(`c-'0'`, `c-'a'+10`, `c-'A'+10`). -/
def hexDigitVal (c : Char) : Nat :=
  if 48 ≤ c.toNat ∧ c.toNat ≤ 57 then c.toNat - 48
  else if 97 ≤ c.toNat ∧ c.toNat ≤ 102 then c.toNat - 87
  else if 65 ≤ c.toNat ∧ c.toNat ≤ 70 then c.toNat - 55
  else 0

/-- Hex value of a digit string, Go `acc = acc<<4 + val`. -/
def hexVal (ds : List Char) : Nat :=
  ds.foldl (fun a c => a * 16 + hexDigitVal c) 0

/-- The character for a decimal digit. -/
def digitChar : Nat → Char
  | 0 => '0' | 1 => '1' | 2 => '2' | 3 => '3' | 4 => '4'
  | 5 => '5' | 6 => '6' | 7 => '7' | 8 => '8' | 9 => '9'
  | _ => '?'

/-- The character for a (lowercase) hex digit, as printed by
`netip.Addr.String`. -/
def hexDigitChar : Nat → Char
  | 0 => '0' | 1 => '1' | 2 => '2' | 3 => '3' | 4 => '4'
  | 5 => '5' | 6 => '6' | 7 => '7' | 8 => '8' | 9 => '9'
  | 10 => 'a' | 11 => 'b' | 12 => 'c' | 13 => 'd' | 14 => 'e' | 15 => 'f'
  | _ => '?'

/-- Decimal print of an IPv4 octet (`n < 256`), without leading zeros:
the `appendDecimal` used by `netip.Addr.String` restricted to octet
range. -/
def decStr (n : Nat) : List Char :=
  if n < 10 then [digitChar n]
  else if n < 100 then [digitChar (n / 10), digitChar (n % 10)]
  else [digitChar (n / 100), digitChar (n / 10 % 10), digitChar (n % 10)]

/-- Lowercase hex print of a 16-bit IPv6 group (`n < 65536`), without
leading zeros: the `appendHex` used by `netip.Addr.String` restricted
to group range. -/
def hexStr (n : Nat) : List Char :=
  if n < 16 then [hexDigitChar n]
  else if n < 256 then [hexDigitChar (n / 16), hexDigitChar (n % 16)]
  else if n < 4096 then [hexDigitChar (n / 256), hexDigitChar (n / 16 % 16), hexDigitChar (n % 16)]
  else [hexDigitChar (n / 4096), hexDigitChar (n / 256 % 16), hexDigitChar (n / 16 % 16),
    hexDigitChar (n % 16)]

/-- An IP address as held by `netip.Addr`: either a 4-byte IPv4 address
(`z4`) or a 16-byte IPv6 address kept as eight 16-bit groups.  A
4-in-6 address (`::ffff:a.b.c.d`) is a `v6` value, exactly as in
`netip`. -/
inductive Addr where
  | v4 : Nat → Nat → Nat → Nat → Addr
  | v6 : List Nat → Addr
deriving DecidableEq, Repr

/-- Range invariants of an `Addr`. -/
def Addr.valid : Addr → Prop
  | .v4 a b c d => a < 256 ∧ b < 256 ∧ c < 256 ∧ d < 256
  | .v6 gs => gs.length = 8 ∧ ∀ g ∈ gs, g < 65536

/-- `netip.Addr.string4`: dotted-quad print. -/
def string4 (a b c d : Nat) : List Char :=
  decStr a ++ ('.' :: (decStr b ++ ('.' :: (decStr c ++ ('.' :: decStr d)))))

/-- Join hex groups with single colons (the uncompressed part of
`string16`). -/
def joinColon : List (List Char) → List Char
  | [] => []
  | [x] => x
  | x :: xs => x ++ ':' :: joinColon xs

/-- The longest run (leftmost on ties) of at least two zero groups, as
found by the first loop of `netip.Addr.appendTo16`.  Returns the
absolute start index and the run length. -/
def zeroRun : List Nat → Nat → Option (Nat × Nat)
  | [], _ => none
  | g :: rest, i =>
    let cur := ((g :: rest).takeWhile (· = 0)).length
    match zeroRun rest (i + 1) with
    | some (s, l) => if 2 ≤ cur ∧ l ≤ cur then some (i, cur) else some (s, l)
    | none => if 2 ≤ cur then some (i, cur) else none

/-- `netip.Addr.String` for an address without zone: dotted quad for
IPv4, `::ffff:a.b.c.d` for 4-in-6, otherwise RFC 5952 hex groups with
the longest zero run compressed. -/
def printAddr : Addr → List Char
  | .v4 a b c d => string4 a b c d
  | .v6 gs =>
    if gs.take 6 = [0, 0, 0, 0, 0, 65535] then
      ':' :: ':' :: 'f' :: 'f' :: 'f' :: 'f' :: ':' ::
        string4 (gs.getD 6 0 / 256) (gs.getD 6 0 % 256) (gs.getD 7 0 / 256) (gs.getD 7 0 % 256)
    else
      match zeroRun gs 0 with
      | none => joinColon (gs.map hexStr)
      | some (s, l) =>
        joinColon ((gs.take s).map hexStr) ++ ':' :: ':' :: joinColon ((gs.drop (s + l)).map hexStr)

/-- `netip` `parseIPv4Fields`: the state machine over the characters;
`val`/`digLen` track the current field, `fields` the completed ones. -/
def parseIPv4Go : List Char → Nat → Nat → List Nat → Option (List Nat)
  | [], val, _, fields =>
    if fields.length < 3 then none else some (fields ++ [val])
  | c :: rest, val, digLen, fields =>
    if isDigitC c then
      if digLen = 1 ∧ val = 0 then none
      else
        let val1 := val * 10 + (c.toNat - 48)
        if 255 < val1 then none
        else parseIPv4Go rest val1 (digLen + 1) fields
    else if c = '.' then
      if digLen = 0 then none
      else if rest = [] then none
      else if fields.length = 3 then none
      else parseIPv4Go rest 0 0 (fields ++ [val])
    else none

/-- `netip` `parseIPv4Fields` entry point: four dotted decimal fields. -/
def parseIPv4Fields (s : List Char) : Option (List Nat) :=
  parseIPv4Go s 0 0 []

/-- One step state of the `parseIPv6` loop: groups parsed so far, the
ellipsis position (in groups) if seen, and the unconsumed characters.
The first argument counts the remaining group slots (Go's `i < 16`
bound over byte pairs). -/
def v6loop : Nat → List Nat → Option Nat → List Char → Option (List Nat × Option Nat × List Char)
  | 0, groups, ell, s => some (groups, ell, s)
  | rem + 1, groups, ell, s =>
    let ds := s.takeWhile isHexDigitC
    let rest := s.dropWhile isHexDigitC
    if ds.length = 0 then none
    else if 4 < ds.length then none
    else
      match rest with
      | [] => some (groups ++ [hexVal ds], ell, [])
      | c :: r2 =>
        if c = '.' then
          if ell = none ∧ groups.length ≠ 6 then none
          else if 6 < groups.length then none
          else
            match parseIPv4Fields (ds ++ c :: r2) with
            | some [a, b, c4, d] => some (groups ++ [a * 256 + b, c4 * 256 + d], ell, [])
            | _ => none
        else if c = ':' then
          match r2 with
          | [] => none
          | c2 :: r3 =>
            if c2 = ':' then
              if ell ≠ none then none
              else if r3 = [] then some (groups ++ [hexVal ds], some (groups.length + 1), [])
              else v6loop rem (groups ++ [hexVal ds]) (some (groups.length + 1)) r3
            else v6loop rem (groups ++ [hexVal ds]) ell (c2 :: r3)
        else none

/-- Ellipsis expansion and final checks after the `parseIPv6` loop
(`t` is the loop state: groups, ellipsis position, leftover input). -/
def finishV6 (t : List Nat × Option Nat × List Char) : Option Addr :=
  if t.2.2 ≠ [] then none
  else if t.1.length < 8 then
    match t.2.1 with
    | none => none
    | some e => some (.v6 (t.1.take e ++ List.replicate (8 - t.1.length) 0 ++ t.1.drop e))
  else
    match t.2.1 with
    | none => some (.v6 t.1)
    | some _ => none

/-- `netip` `parseIPv6` (zone handling omitted: the caller `parseIP`
strips any `%zone` before parsing). -/
def parseIPv6 (s : List Char) : Option Addr :=
  if s.take 2 = [':', ':'] then
    if s.drop 2 = [] then some (.v6 (List.replicate 8 0))
    else (v6loop 8 [] (some 0) (s.drop 2)).bind finishV6
  else (v6loop 8 [] none s).bind finishV6

/-- `netip.ParseAddr`: dispatch on the first `.`, `:` or `%`. -/
def goParseAddr (s : List Char) : Option Addr :=
  match s.find? (fun c => decide (c = '.' ∨ c = ':' ∨ c = '%')) with
  | some c =>
    if c = '.' then
      match parseIPv4Fields s with
      | some [a, b, c4, d] => some (.v4 a b c4 d)
      | _ => none
    else if c = ':' then parseIPv6 s
    else none
  | none => none

/-- The control/space reject set of `parseIP`
(`strings.ContainsAny(s, "\x00...\x1f\x7f ")`). -/
def isCtlOrSpace (c : Char) : Bool :=
  decide (c.toNat < 32 ∨ c.toNat = 127 ∨ c.toNat = 32)

/-- `parseIP` from `rate_limiter.go`: trim, reject control characters
and spaces, unwrap `[...]`, strip a `%zone`, parse with
`netip.ParseAddr` and return the canonical `Addr.String`, or the empty
string on any failure. -/
def parseIPL (s : List Char) : List Char :=
  if s = [] then []
  else
    let s1 := trimSpaceL s
    if s1.any isCtlOrSpace then []
    else
      let s2 := if 2 ≤ s1.length ∧ s1.head? = some '[' ∧ s1.getLast? = some ']'
        then (s1.drop 1).dropLast else s1
      let s3 := s2.takeWhile (· ≠ '%')
      match goParseAddr s3 with
      | some a => printAddr a
      | none => []

/-- Index of the last occurrence of `c` (Go's `last` helper used by
`net.SplitHostPort`). -/
def lastIndexOf (s : List Char) (c : Char) : Option Nat :=
  match s with
  | [] => none
  | a :: rest =>
    match lastIndexOf rest c with
    | some i => some (i + 1)
    | none => if a = c then some 0 else none

/-- `net.SplitHostPort`, host part only (`none` on any of its
errors).  The port substring is not validated, exactly as in Go. -/
def splitHostPort (s : List Char) : Option (List Char) :=
  match lastIndexOf s ':' with
  | none => none
  | some i =>
    if s.head? = some '[' then
      match s.findIdx? (· = ']') with
      | none => none
      | some e =>
        if e + 1 = s.length then none
        else if e + 1 = i then
          if (s.drop 1).contains '[' then none
          else if (s.drop (e + 1)).contains ']' then none
          else some ((s.drop 1).take (e - 1))
        else none
    else
      let host := s.take i
      if host.contains ':' then none
      else if s.contains '[' then none
      else if s.contains ']' then none
      else some host

/-- `stripPort` from `rate_limiter.go`: the host part if
`net.SplitHostPort` succeeds, the input otherwise. -/
def stripPort (s : List Char) : List Char :=
  (splitHostPort s).getD s

/-- Split on a separator character (the byte-oriented fast path of
`splitAndTrim` for an ASCII separator such as `,`). -/
def splitOnChar (sep : Char) : List Char → List (List Char)
  | [] => [[]]
  | c :: rest =>
    match splitOnChar sep rest with
    | [] => [[]]
    | h :: t => if c = sep then [] :: h :: t else (c :: h) :: t

/-- `splitAndTrim` from `rate_limiter.go`: split on `sep`, trim each
part, keep the non-empty ones. -/
def splitAndTrim (s : List Char) (sep : Char) : List (List Char) :=
  ((splitOnChar sep s).map trimSpaceL).filter (· ≠ [])

/-- The header loop of `getClientIP`: first entry that survives
`stripPort` then `parseIP`. -/
def firstValid : List (List Char) → List Char
  | [] => []
  | p :: rest =>
    let parsed := parseIPL (stripPort p)
    if parsed ≠ [] then parsed else firstValid rest

/-- `getClientIP` from `rate_limiter.go`.  `headerValue` stands for
`r.Header.Get(trustedHeader)` (empty when the header is absent),
`remoteAddr` for `r.RemoteAddr`. -/
def getClientIP (trustedHeader headerValue remoteAddr : List Char) : List Char :=
  if trustedHeader ≠ [] then
    if headerValue ≠ [] then firstValid (splitAndTrim headerValue ',')
    else []
  else
    let host := trimSpaceL (stripPort remoteAddr)
    let parsed := parseIPL host
    if parsed ≠ [] then
      if parsed.any (fun c => c = ' ' ∨ c.toNat = 10 ∨ c.toNat = 13 ∨ c.toNat = 9) ∨
          parsed.contains ',' then []
      else parsed
    else []

/-- String-level wrapper of `parseIP`. -/
def parseIPS (s : String) : String :=
  ⟨parseIPL s.data⟩

/-- String-level wrapper of `getClientIP`. -/
def getClientIPS (trustedHeader headerValue remoteAddr : String) : String :=
  ⟨getClientIP trustedHeader.data headerValue.data remoteAddr.data⟩

/-- Per-client state (`Visitor` in `rate_limiter.go`): remaining
tokens and the last refill-accounting instant (nanoseconds). -/
structure Visitor where
  tokens : Int
  lastToken : Int
deriving DecidableEq, Repr

/-- The visitor map, modelled as an association list keyed by client
IP. -/
abbrev Store := List (String × Visitor)

/-- Map lookup. -/
def lookupV : Store → String → Option Visitor
  | [], _ => none
  | (k, v) :: rest, ip => if k = ip then some v else lookupV rest ip

/-- In-place mutation of an existing visitor (a `*Visitor` write in
Go). -/
def updateV : Store → String → Visitor → Store
  | [], _, _ => []
  | (k, v) :: rest, ip, nv => if k = ip then (k, nv) :: rest else (k, v) :: updateV rest ip nv

/-- `delete(rl.visitors, ip)`. -/
def eraseV (s : Store) (ip : String) : Store :=
  s.filter (fun p => p.1 ≠ ip)

/-- The limiter configuration (`RateLimiter` fields used by `Allow`):
refill interval in nanoseconds, bucket capacity, distinct-client cap. -/
structure RateLimiter where
  rate : Int
  capacity : Int
  maxClients : Int
deriving DecidableEq, Repr

/-- The requests-per-minute normalization in `NewRateLimiter`:
non-positive input becomes the default 30, input above one million is
clamped. -/
def normalizeRPM (rpm : Int) : Int :=
  if rpm ≤ 0 then 30
  else if 1000000 < rpm then 1000000
  else rpm

/-- `NewRateLimiter`: normalized capacity, `rate = time.Minute / rpm`
with the defensive positive floor, `maxClients` left at its zero
value (the middleware overrides it). -/
def newRateLimiter (rpm : Int) : RateLimiter :=
  let r := normalizeRPM rpm
  let rate := Int.tdiv 60000000000 r
  { rate := if rate ≤ 0 then 1 else rate, capacity := r, maxClients := 0 }

/-- `Allow` from `rate_limiter.go`, one sequential step at time `now`
(nanoseconds): returns the decision and the updated store. -/
def allow (rl : RateLimiter) (store : Store) (ip : String) (now : Int) : Bool × Store :=
  if trimSpaceL ip.data = [] then (false, store)
  else
    match lookupV store ip with
    | none =>
      if 0 < rl.maxClients ∧ rl.maxClients ≤ (store.length : Int) then (false, store)
      else (true, (ip, { tokens := rl.capacity - 1, lastToken := now }) :: store)
    | some visitor =>
      let elapsed := now - visitor.lastToken
      let tokensToAdd64 : Int := if 0 < rl.rate then Int.tdiv elapsed rl.rate else 0
      let visitor1 :=
        if 0 < tokensToAdd64 then
          let t := if rl.capacity < tokensToAdd64 then rl.capacity else tokensToAdd64
          let tok := visitor.tokens + t
          let tok := if rl.capacity < tok then rl.capacity else tok
          { tokens := tok, lastToken := visitor.lastToken + t * rl.rate }
        else visitor
      if 0 < visitor1.tokens then
        (true, updateV store ip { visitor1 with tokens := visitor1.tokens - 1 })
      else (false, updateV store ip visitor1)

/-- `n` consecutive `Allow` calls for the same key at the same
instant. -/
def allowN (rl : RateLimiter) (store : Store) (ip : String) (now : Int) : Nat → List Bool × Store
  | 0 => ([], store)
  | n + 1 =>
    let r := allow rl store ip now
    let rest := allowN rl r.2 ip now n
    (r.1 :: rest.1, rest.2)

/-- The batch selection of one cleanup tick (`cleanupVisitors`):
`start := cursor % len`, `end := min (start + batchSize) len`, batch
`ips[start:end]`, new cursor `end % len`.  Callers guarantee
`ips ≠ []`. -/
def cleanupSelect (ips : List String) (cursor batchSize : Nat) : List String × Nat :=
  let start := cursor % ips.length
  let e := if ips.length < start + batchSize then ips.length else start + batchSize
  ((ips.drop start).take (e - start), e % ips.length)

/-- The per-key body of the cleanup loop: delete the entry iff the
visitor exists and `lastToken.Before(cutoff)`; the Go re-check under
the write lock coincides with the first read in this single-step
model. -/
def cleanupStep (cutoff : Int) (st : Store) (ip : String) : Store :=
  match lookupV st ip with
  | none => st
  | some v => if v.lastToken < cutoff then eraseV st ip else st

/-- The per-batch eviction of one cleanup tick, sequentially. -/
def cleanupBatch (store : Store) (batch : List String) (cutoff : Int) : Store :=
  batch.foldl (cleanupStep cutoff) store

lemma ne_of_hex_of_not {c d : Char} (h : isHexDigitC c = true) (hd : isHexDigitC d = false) :
    c ≠ d := by
  intro e
  rw [e, hd] at h
  exact Bool.noConfusion h

lemma hexDigitChar_hex {m : Nat} (h : m < 16) : isHexDigitC (hexDigitChar m) = true := by
  interval_cases m <;> decide

lemma hexDigitChar_val {m : Nat} (h : m < 16) : hexDigitVal (hexDigitChar m) = m := by
  interval_cases m <;> decide

lemma digitChar_digit {m : Nat} (h : m < 10) : isDigitC (digitChar m) = true := by
  interval_cases m <;> decide

lemma digitChar_toNat {m : Nat} (h : m < 10) : (digitChar m).toNat = 48 + m := by
  interval_cases m <;> decide

lemma digit_is_hex {c : Char} (h : isDigitC c = true) : isHexDigitC c = true := by
  simp only [isDigitC, decide_eq_true_eq] at h
  simp only [isHexDigitC, decide_eq_true_eq]
  omega

lemma decStr_ne_nil (n : Nat) : decStr n ≠ [] := by
  unfold decStr
  split
  · simp
  · split <;> simp

lemma decStr_length_le (n : Nat) : (decStr n).length ≤ 3 := by
  unfold decStr
  split
  · simp
  · split <;> simp

lemma mem_decStr {n : Nat} (h : n < 256) {c : Char} (hc : c ∈ decStr n) : isDigitC c = true := by
  unfold decStr at hc
  split at hc
  · simp only [List.mem_singleton] at hc
    subst hc
    exact digitChar_digit (by omega)
  · split at hc
    · simp only [List.mem_cons, List.mem_singleton, List.not_mem_nil, or_false] at hc
      rcases hc with h1 | h1 <;> subst h1
      · exact digitChar_digit (by omega)
      · exact digitChar_digit (by omega)
    · simp only [List.mem_cons, List.mem_singleton, List.not_mem_nil, or_false] at hc
      rcases hc with h1 | h1 | h1 <;> subst h1
      · exact digitChar_digit (by omega)
      · exact digitChar_digit (by omega)
      · exact digitChar_digit (by omega)

lemma parseIPv4Go_digit {c : Char} {val dl : Nat} (hc : isDigitC c = true)
    (hlz : ¬(dl = 1 ∧ val = 0)) (hv : val * 10 + (c.toNat - 48) ≤ 255)
    (rest : List Char) (fields : List Nat) :
    parseIPv4Go (c :: rest) val dl fields =
      parseIPv4Go rest (val * 10 + (c.toNat - 48)) (dl + 1) fields := by
  simp only [parseIPv4Go, hc, if_true, if_neg hlz,
    if_neg (by omega : ¬ 255 < val * 10 + (c.toNat - 48))]

lemma parseIPv4Go_dot {val dl : Nat} (hdl : dl ≠ 0) {rest : List Char} (hr : rest ≠ [])
    {fields : List Nat} (hf : fields.length ≠ 3) :
    parseIPv4Go ('.' :: rest) val dl fields = parseIPv4Go rest 0 0 (fields ++ [val]) := by
  simp only [parseIPv4Go, show isDigitC '.' = false from rfl, Bool.false_eq_true, if_false,
    if_pos rfl, if_neg hdl, if_neg hr, if_neg hf]
  simp

lemma parseIPv4Go_decStr {n : Nat} (h : n < 256) (rest : List Char) (fields : List Nat) :
    parseIPv4Go (decStr n ++ rest) 0 0 fields =
      parseIPv4Go rest n (decStr n).length fields := by
  unfold decStr
  split
  · rename_i h1
    rw [List.singleton_append,
      parseIPv4Go_digit (digitChar_digit h1) (by omega) (by rw [digitChar_toNat h1]; omega)]
    rw [digitChar_toNat h1]
    norm_num
  · split
    · rename_i h1 h2
      rw [List.cons_append, List.cons_append, List.nil_append,
        parseIPv4Go_digit (digitChar_digit (by omega)) (by omega)
          (by rw [digitChar_toNat (by omega : n / 10 < 10)]; omega),
        digitChar_toNat (by omega : n / 10 < 10),
        parseIPv4Go_digit (digitChar_digit (by omega : n % 10 < 10)) (by omega)
          (by rw [digitChar_toNat (by omega : n % 10 < 10)]; omega),
        digitChar_toNat (by omega : n % 10 < 10)]
      have : (0 * 10 + (48 + n / 10 - 48)) * 10 + (48 + n % 10 - 48) = n := by omega
      rw [this]
      norm_num
    · rename_i h1 h2
      rw [List.cons_append, List.cons_append, List.cons_append, List.nil_append,
        parseIPv4Go_digit (digitChar_digit (by omega : n / 100 < 10)) (by omega)
          (by rw [digitChar_toNat (by omega : n / 100 < 10)]; omega),
        digitChar_toNat (by omega : n / 100 < 10),
        parseIPv4Go_digit (digitChar_digit (by omega : n / 10 % 10 < 10)) (by omega)
          (by rw [digitChar_toNat (by omega : n / 10 % 10 < 10)]; omega),
        digitChar_toNat (by omega : n / 10 % 10 < 10),
        parseIPv4Go_digit (digitChar_digit (by omega : n % 10 < 10)) (by omega)
          (by rw [digitChar_toNat (by omega : n % 10 < 10)]; omega),
        digitChar_toNat (by omega : n % 10 < 10)]
      have : ((0 * 10 + (48 + n / 100 - 48)) * 10 + (48 + n / 10 % 10 - 48)) * 10 +
          (48 + n % 10 - 48) = n := by omega
      rw [this]
      norm_num

lemma parseIPv4Fields_string4 {a b c d : Nat} (ha : a < 256) (hb : b < 256) (hc : c < 256)
    (hd : d < 256) : parseIPv4Fields (string4 a b c d) = some [a, b, c, d] := by
  have hne : ∀ m : Nat, ∀ r : List Char, decStr m ++ r ≠ [] := by
    intro m r e
    exact decStr_ne_nil m (List.append_eq_nil.mp e).1
  have hdl : ∀ m : Nat, (decStr m).length ≠ 0 := by
    intro m e
    exact decStr_ne_nil m (List.length_eq_zero.mp e)
  unfold parseIPv4Fields string4
  rw [parseIPv4Go_decStr ha,
    parseIPv4Go_dot (hdl a) (hne b _) (by simp),
    parseIPv4Go_decStr hb,
    parseIPv4Go_dot (hdl b) (hne c _) (by simp),
    parseIPv4Go_decStr hc,
    parseIPv4Go_dot (hdl c) (by simpa using decStr_ne_nil d) (by simp)]
  have step : parseIPv4Go (decStr d ++ []) 0 0 [a, b, c] =
      parseIPv4Go [] d (decStr d).length [a, b, c] := parseIPv4Go_decStr hd [] _
  rw [List.append_nil] at step
  simp only [List.nil_append, List.cons_append, List.singleton_append]
  rw [step]
  simp [parseIPv4Go]

lemma hexStr_ne_nil (n : Nat) : hexStr n ≠ [] := by
  unfold hexStr
  split
  · simp
  · split
    · simp
    · split <;> simp

lemma hexStr_length_le (n : Nat) : (hexStr n).length ≤ 4 := by
  unfold hexStr
  split
  · simp
  · split
    · simp
    · split <;> simp

lemma mem_hexStr {n : Nat} (h : n < 65536) {c : Char} (hc : c ∈ hexStr n) :
    isHexDigitC c = true := by
  unfold hexStr at hc
  split at hc
  · simp only [List.mem_singleton] at hc
    subst hc
    exact hexDigitChar_hex (by omega)
  · split at hc
    · simp only [List.mem_cons, List.mem_singleton, List.not_mem_nil, or_false] at hc
      rcases hc with h1 | h1 <;> subst h1
      · exact hexDigitChar_hex (by omega)
      · exact hexDigitChar_hex (by omega)
    · split at hc
      · simp only [List.mem_cons, List.mem_singleton, List.not_mem_nil, or_false] at hc
        rcases hc with h1 | h1 | h1 <;> subst h1
        · exact hexDigitChar_hex (by omega)
        · exact hexDigitChar_hex (by omega)
        · exact hexDigitChar_hex (by omega)
      · simp only [List.mem_cons, List.mem_singleton, List.not_mem_nil, or_false] at hc
        rcases hc with h1 | h1 | h1 | h1 <;> subst h1
        · exact hexDigitChar_hex (by omega)
        · exact hexDigitChar_hex (by omega)
        · exact hexDigitChar_hex (by omega)
        · exact hexDigitChar_hex (by omega)

lemma hexVal_hexStr {n : Nat} (h : n < 65536) : hexVal (hexStr n) = n := by
  unfold hexStr
  split
  · rename_i h1
    simp only [hexVal, List.foldl]
    rw [hexDigitChar_val (by omega)]
    omega
  · split
    · rename_i h1 h2
      simp only [hexVal, List.foldl]
      rw [hexDigitChar_val (by omega : n / 16 < 16), hexDigitChar_val (by omega : n % 16 < 16)]
      omega
    · split
      · rename_i h1 h2 h3
        simp only [hexVal, List.foldl]
        rw [hexDigitChar_val (by omega : n / 256 < 16),
          hexDigitChar_val (by omega : n / 16 % 16 < 16),
          hexDigitChar_val (by omega : n % 16 < 16)]
        omega
      · rename_i h1 h2 h3
        simp only [hexVal, List.foldl]
        rw [hexDigitChar_val (by omega : n / 4096 < 16),
          hexDigitChar_val (by omega : n / 256 % 16 < 16),
          hexDigitChar_val (by omega : n / 16 % 16 < 16),
          hexDigitChar_val (by omega : n % 16 < 16)]
        omega

lemma takeWhile_all {p : Char → Bool} {l : List Char} (hl : ∀ x ∈ l, p x = true) :
    l.takeWhile p = l ∧ l.dropWhile p = [] := by
  induction l with
  | nil => simp
  | cons a t ih =>
    have ha : p a = true := hl a (by simp)
    have ht := ih fun x hx => hl x (by simp [hx])
    simp [List.takeWhile_cons, List.dropWhile_cons, ha, ht.1, ht.2]

lemma takeWhile_append_not {p : Char → Bool} {l : List Char} (hl : ∀ x ∈ l, p x = true)
    {c : Char} (hc : p c = false) (r : List Char) :
    (l ++ c :: r).takeWhile p = l ∧ (l ++ c :: r).dropWhile p = c :: r := by
  induction l with
  | nil => simp [List.takeWhile_cons, List.dropWhile_cons, hc]
  | cons a t ih =>
    have ha : p a = true := hl a (by simp)
    have ht := ih fun x hx => hl x (by simp [hx])
    simp [List.takeWhile_cons, List.dropWhile_cons, ha, ht.1, ht.2]

lemma v6loop_group_end {rem : Nat} {groups : List Nat} {ell : Option Nat} {g : Nat}
    (hg : g < 65536) :
    v6loop (rem + 1) groups ell (hexStr g) = some (groups ++ [g], ell, []) := by
  have hds := takeWhile_all (p := isHexDigitC) (fun c hc => mem_hexStr hg hc)
  simp only [v6loop, hds.1, hds.2]
  rw [if_neg (by simpa using hexStr_ne_nil g), if_neg (by push_neg; exact hexStr_length_le g)]
  rw [hexVal_hexStr hg]

lemma v6loop_group_colon {rem : Nat} {groups : List Nat} {ell : Option Nat} {g : Nat}
    (hg : g < 65536) {c2 : Char} (hc2 : isHexDigitC c2 = true) (r3 : List Char) :
    v6loop (rem + 1) groups ell (hexStr g ++ ':' :: c2 :: r3) =
      v6loop rem (groups ++ [g]) ell (c2 :: r3) := by
  have hds := takeWhile_append_not (p := isHexDigitC) (fun c hc => mem_hexStr hg hc)
    (by decide : isHexDigitC ':' = false) (c2 :: r3)
  simp only [v6loop, hds.1, hds.2]
  rw [if_neg (by simpa using hexStr_ne_nil g), if_neg (by push_neg; exact hexStr_length_le g),
    hexVal_hexStr hg]
  have hne : c2 ≠ ':' := ne_of_hex_of_not hc2 (by decide)
  simp [hne]

lemma v6loop_group_ell_end {rem : Nat} {groups : List Nat} {g : Nat} (hg : g < 65536) :
    v6loop (rem + 1) groups none (hexStr g ++ [':', ':']) =
      some (groups ++ [g], some (groups.length + 1), []) := by
  have hds := takeWhile_append_not (p := isHexDigitC) (fun c hc => mem_hexStr hg hc)
    (by decide : isHexDigitC ':' = false) [':']
  simp only [v6loop, hds.1, hds.2]
  rw [if_neg (by simpa using hexStr_ne_nil g), if_neg (by push_neg; exact hexStr_length_le g),
    hexVal_hexStr hg]
  simp

lemma v6loop_group_ell_more {rem : Nat} {groups : List Nat} {g : Nat} (hg : g < 65536)
    {r3 : List Char} (hr3 : r3 ≠ []) :
    v6loop (rem + 1) groups none (hexStr g ++ ':' :: ':' :: r3) =
      v6loop rem (groups ++ [g]) (some (groups.length + 1)) r3 := by
  have hds := takeWhile_append_not (p := isHexDigitC) (fun c hc => mem_hexStr hg hc)
    (by decide : isHexDigitC ':' = false) (':' :: r3)
  simp only [v6loop, hds.1, hds.2]
  rw [if_neg (by simpa using hexStr_ne_nil g), if_neg (by push_neg; exact hexStr_length_le g),
    hexVal_hexStr hg]
  simp [hr3]

lemma joinColon_cons_cons (x y : List Char) (ys : List (List Char)) :
    joinColon (x :: y :: ys) = x ++ ':' :: joinColon (y :: ys) := rfl

lemma joinColon_cons_ne (x : List Char) {ys : List (List Char)} (h : ys ≠ []) :
    joinColon (x :: ys) = x ++ ':' :: joinColon ys := by
  cases ys with
  | nil => exact absurd rfl h
  | cons y t => rfl

lemma joinColon_hex_head (g2 : Nat) (h : g2 < 65536) (tl2 : List Nat) :
    ∃ c2 r3, joinColon ((g2 :: tl2).map hexStr) = c2 :: r3 ∧ isHexDigitC c2 = true := by
  obtain ⟨c2, t, he⟩ : ∃ c t, hexStr g2 = c :: t := by
    cases hh : hexStr g2 with
    | nil => exact absurd hh (hexStr_ne_nil g2)
    | cons c t => exact ⟨c, t, rfl⟩
  have hc2 : isHexDigitC c2 = true := mem_hexStr h (by rw [he]; simp)
  cases tl2 with
  | nil => exact ⟨c2, t, by simp [joinColon, he], hc2⟩
  | cons y ys =>
    exact ⟨c2, t ++ ':' :: joinColon ((y :: ys).map hexStr),
      by simp [List.map_cons, joinColon_cons_cons, he], hc2⟩

lemma v6loop_join {gl : List Nat} (hgl : gl ≠ []) (hv : ∀ g ∈ gl, g < 65536)
    (groups : List Nat) (ell : Option Nat) (rem : Nat) (hrem : gl.length ≤ rem) :
    v6loop rem groups ell (joinColon (gl.map hexStr)) = some (groups ++ gl, ell, []) := by
  induction gl generalizing groups rem with
  | nil => exact absurd rfl hgl
  | cons g tl ih =>
    obtain ⟨rem1, rfl⟩ : ∃ r, rem = r + 1 := ⟨rem - 1, by simp at hrem; omega⟩
    have hg : g < 65536 := hv g (by simp)
    cases tl with
    | nil => simpa [joinColon] using @v6loop_group_end rem1 groups ell g hg
    | cons g2 tl2 =>
      obtain ⟨c2, r3, hj, hc2⟩ := joinColon_hex_head g2 (hv g2 (by simp)) tl2
      rw [List.map_cons, joinColon_cons_ne _ (by simp), hj, v6loop_group_colon hg hc2 r3, ← hj,
        ih (by simp) (fun x hx => hv x (by simp [hx])) _ _ (by simp at hrem ⊢; omega)]
      simp

lemma v6loop_join_ellEnd {gl : List Nat} (hgl : gl ≠ []) (hv : ∀ g ∈ gl, g < 65536)
    (groups : List Nat) (rem : Nat) (hrem : gl.length ≤ rem) :
    v6loop rem groups none (joinColon (gl.map hexStr) ++ [':', ':']) =
      some (groups ++ gl, some ((groups ++ gl).length), []) := by
  induction gl generalizing groups rem with
  | nil => exact absurd rfl hgl
  | cons g tl ih =>
    obtain ⟨rem1, rfl⟩ : ∃ r, rem = r + 1 := ⟨rem - 1, by simp at hrem; omega⟩
    have hg : g < 65536 := hv g (by simp)
    cases tl with
    | nil =>
      have := @v6loop_group_ell_end rem1 groups g hg
      simpa [joinColon] using this
    | cons g2 tl2 =>
      obtain ⟨c2, r3, hj, hc2⟩ := joinColon_hex_head g2 (hv g2 (by simp)) tl2
      rw [List.map_cons, joinColon_cons_ne _ (by simp)]
      rw [show (hexStr g ++ ':' :: joinColon ((g2 :: tl2).map hexStr)) ++ [':', ':'] =
        hexStr g ++ ':' :: (joinColon ((g2 :: tl2).map hexStr) ++ [':', ':']) by
          simp [List.append_assoc]]
      rw [hj, List.cons_append, v6loop_group_colon hg hc2 (r3 ++ [':', ':']),
        show c2 :: (r3 ++ [':', ':']) = (c2 :: r3) ++ [':', ':'] by simp, ← hj,
        ih (by simp) (fun x hx => hv x (by simp [hx])) _ _ (by simp at hrem ⊢; omega)]
      simp

lemma v6loop_join_ellMid {gl gl2 : List Nat} (hgl : gl ≠ []) (hgl2 : gl2 ≠ [])
    (hv : ∀ g ∈ gl, g < 65536) (hv2 : ∀ g ∈ gl2, g < 65536)
    (groups : List Nat) (rem : Nat) (hrem : gl.length + gl2.length ≤ rem) :
    v6loop rem groups none
        (joinColon (gl.map hexStr) ++ ':' :: ':' :: joinColon (gl2.map hexStr)) =
      some (groups ++ gl ++ gl2, some ((groups ++ gl).length), []) := by
  induction gl generalizing groups rem with
  | nil => exact absurd rfl hgl
  | cons g tl ih =>
    obtain ⟨rem1, rfl⟩ : ∃ r, rem = r + 1 := ⟨rem - 1, by simp at hrem; omega⟩
    have hg : g < 65536 := hv g (by simp)
    obtain ⟨gh, gt, hgl2e⟩ : ∃ x xs, gl2 = x :: xs := by
      cases gl2 with
      | nil => exact absurd rfl hgl2
      | cons x xs => exact ⟨x, xs, rfl⟩
    obtain ⟨d2, q3, hj2, hd2⟩ := joinColon_hex_head gh (hv2 gh (by simp [hgl2e])) gt
    cases tl with
    | nil =>
      rw [show joinColon ([g].map hexStr) = hexStr g by simp [joinColon]]
      rw [hgl2e, hj2, v6loop_group_ell_more hg (by simp), ← hj2, ← hgl2e,
        v6loop_join hgl2 hv2 _ _ _ (by simp at hrem; omega)]
      simp
    | cons g2 tl2 =>
      obtain ⟨c2, r3, hj, hc2⟩ := joinColon_hex_head g2 (hv g2 (by simp)) tl2
      rw [List.map_cons, joinColon_cons_ne _ (by simp)]
      rw [show (hexStr g ++ ':' :: joinColon ((g2 :: tl2).map hexStr)) ++
          ':' :: ':' :: joinColon (gl2.map hexStr) =
        hexStr g ++ ':' :: (joinColon ((g2 :: tl2).map hexStr) ++
          ':' :: ':' :: joinColon (gl2.map hexStr)) by simp [List.append_assoc]]
      rw [hj, List.cons_append, v6loop_group_colon hg hc2 _,
        show c2 :: (r3 ++ ':' :: ':' :: joinColon (gl2.map hexStr)) =
          (c2 :: r3) ++ ':' :: ':' :: joinColon (gl2.map hexStr) by simp, ← hj,
        ih (by simp) (fun x hx => hv x (by simp [hx])) _ _ (by simp at hrem ⊢; omega)]
      simp

lemma v6loop_v4tail {rem : Nat} {groups : List Nat} {ell : Option Nat} {a b c d : Nat}
    (ha : a < 256) (hb : b < 256) (hc : c < 256) (hd : d < 256)
    (hcond : ¬(ell = none ∧ groups.length ≠ 6)) (hlen : groups.length ≤ 6) :
    v6loop (rem + 1) groups ell (string4 a b c d) =
      some (groups ++ [a * 256 + b, c * 256 + d], ell, []) := by
  have hdec : ∀ x ∈ decStr a, isHexDigitC x = true := fun x hx => digit_is_hex (mem_decStr ha hx)
  have hds := takeWhile_append_not (p := isHexDigitC) hdec
    (by decide : isHexDigitC '.' = false) (decStr b ++ ('.' :: (decStr c ++ ('.' :: decStr d))))
  rw [show string4 a b c d =
    decStr a ++ '.' :: (decStr b ++ ('.' :: (decStr c ++ ('.' :: decStr d)))) from rfl]
  simp only [v6loop, hds.1, hds.2]
  rw [if_neg (by simpa using decStr_ne_nil a), if_neg (by have := decStr_length_le a; omega)]
  simp only [if_true]
  rw [if_neg hcond, if_neg (by omega : ¬ 6 < groups.length)]
  rw [show decStr a ++ '.' :: (decStr b ++ ('.' :: (decStr c ++ ('.' :: decStr d)))) =
    string4 a b c d from rfl]
  rw [parseIPv4Fields_string4 ha hb hc hd]

lemma takeWhile_zero (t : List Nat) :
    t = List.replicate ((t.takeWhile (· = 0)).length) 0 ++ t.drop ((t.takeWhile (· = 0)).length) ∧
      (t.takeWhile (· = 0)).length ≤ t.length := by
  induction t with
  | nil => simp
  | cons g rest ih =>
    by_cases hg : g = 0
    · subst hg
      have h1 : List.takeWhile (fun x => decide (x = 0)) (0 :: rest) =
          0 :: List.takeWhile (fun x => decide (x = 0)) rest := by
        simp [List.takeWhile_cons]
      constructor
      · show (0 :: rest) = List.replicate (((0 :: rest).takeWhile (· = 0)).length) 0 ++
          (0 :: rest).drop (((0 :: rest).takeWhile (· = 0)).length)
        rw [show ((0 :: rest).takeWhile (· = 0)) =
          0 :: List.takeWhile (fun x => decide (x = 0)) rest from h1]
        simp only [List.length_cons, List.replicate_succ, List.cons_append, List.drop_succ_cons]
        exact congrArg (0 :: ·) ih.1
      · show (((0 :: rest).takeWhile (· = 0)).length) ≤ (0 :: rest).length
        rw [show ((0 :: rest).takeWhile (· = 0)) =
          0 :: List.takeWhile (fun x => decide (x = 0)) rest from h1]
        simp only [List.length_cons]
        exact Nat.succ_le_succ ih.2
    · have h1 : List.takeWhile (fun x => decide (x = 0)) (g :: rest) = [] := by
        simp [List.takeWhile_cons, hg]
      constructor
      · show (g :: rest) = List.replicate (((g :: rest).takeWhile (· = 0)).length) 0 ++
          (g :: rest).drop (((g :: rest).takeWhile (· = 0)).length)
        rw [show ((g :: rest).takeWhile (· = 0)) = ([] : List Nat) from h1]
        simp
      · show (((g :: rest).takeWhile (· = 0)).length) ≤ (g :: rest).length
        rw [show ((g :: rest).takeWhile (· = 0)) = ([] : List Nat) from h1]
        simp

lemma zeroRun_decomp : ∀ (t : List Nat) (i s l : Nat), zeroRun t i = some (s, l) →
    i ≤ s ∧ s - i + l ≤ t.length ∧ 2 ≤ l ∧
      t = t.take (s - i) ++ List.replicate l 0 ++ t.drop (s - i + l) := by
  intro t
  induction t with
  | nil => intro i s l h; simp [zeroRun] at h
  | cons g rest ih =>
    intro i s l h
    cases hz : zeroRun rest (i + 1) with
    | some p =>
      obtain ⟨s1, l1⟩ := p
      simp only [zeroRun, hz] at h
      by_cases hc : 2 ≤ ((g :: rest).takeWhile (· = 0)).length ∧
          l1 ≤ ((g :: rest).takeWhile (· = 0)).length
      · rw [if_pos hc] at h
        obtain ⟨rfl, rfl⟩ : i = s ∧ ((g :: rest).takeWhile (· = 0)).length = l := by
          cases h; exact ⟨rfl, rfl⟩
        have ht := takeWhile_zero (g :: rest)
        refine ⟨le_refl _, by simpa using ht.2, hc.1, ?_⟩
        simpa using ht.1
      · rw [if_neg hc] at h
        have hs : s1 = s ∧ l1 = l := by cases h; exact ⟨rfl, rfl⟩
        obtain ⟨h1, h2, h3, h4⟩ := ih (i + 1) s1 l1 hz
        rw [hs.1] at h1 h2 h4
        rw [hs.2] at h2 h3 h4
        have hlen : s - i + l ≤ (g :: rest).length := by
          simp only [List.length_cons]
          omega
        refine ⟨by omega, hlen, h3, ?_⟩
        rw [show s - i + l = (s - (i + 1) + l) + 1 by omega,
          show s - i = (s - (i + 1)) + 1 by omega]
        simp only [List.take_succ_cons, List.drop_succ_cons, List.cons_append]
        exact congrArg (g :: ·) h4
    | none =>
      simp only [zeroRun, hz] at h
      by_cases hc : 2 ≤ ((g :: rest).takeWhile (· = 0)).length
      · rw [if_pos hc] at h
        obtain ⟨rfl, rfl⟩ : i = s ∧ ((g :: rest).takeWhile (· = 0)).length = l := by
          cases h; exact ⟨rfl, rfl⟩
        have ht := takeWhile_zero (g :: rest)
        refine ⟨le_refl _, by simpa using ht.2, hc, ?_⟩
        simpa using ht.1
      · rw [if_neg hc] at h
        exact absurd h (by simp)

lemma list_eight {α : Type} {gs : List α} (h : gs.length = 8) :
    ∃ g0 g1 g2 g3 g4 g5 g6 g7, gs = [g0, g1, g2, g3, g4, g5, g6, g7] := by
  obtain ⟨g0, t0, rfl⟩ := List.exists_of_length_succ _ h
  simp only [List.length_cons, Nat.succ_inj] at h
  obtain ⟨g1, t1, rfl⟩ := List.exists_of_length_succ _ h
  simp only [List.length_cons, Nat.succ_inj] at h
  obtain ⟨g2, t2, rfl⟩ := List.exists_of_length_succ _ h
  simp only [List.length_cons, Nat.succ_inj] at h
  obtain ⟨g3, t3, rfl⟩ := List.exists_of_length_succ _ h
  simp only [List.length_cons, Nat.succ_inj] at h
  obtain ⟨g4, t4, rfl⟩ := List.exists_of_length_succ _ h
  simp only [List.length_cons, Nat.succ_inj] at h
  obtain ⟨g5, t5, rfl⟩ := List.exists_of_length_succ _ h
  simp only [List.length_cons, Nat.succ_inj] at h
  obtain ⟨g6, t6, rfl⟩ := List.exists_of_length_succ _ h
  simp only [List.length_cons, Nat.succ_inj] at h
  obtain ⟨g7, t7, rfl⟩ := List.exists_of_length_succ _ h
  simp only [List.length_cons, Nat.succ_inj] at h
  rw [List.length_eq_zero.mp h]
  exact ⟨g0, g1, g2, g3, g4, g5, g6, g7, rfl⟩

lemma mem_joinColon {L : List (List Char)} {c : Char} (hc : c ∈ joinColon L) :
    c = ':' ∨ ∃ x ∈ L, c ∈ x := by
  induction L with
  | nil => simp [joinColon] at hc
  | cons x xs ih =>
    cases xs with
    | nil =>
      simp only [joinColon] at hc
      exact Or.inr ⟨x, by simp, hc⟩
    | cons y ys =>
      rw [joinColon_cons_cons] at hc
      rcases List.mem_append.mp hc with h1 | h1
      · exact Or.inr ⟨x, by simp, h1⟩
      · rcases List.mem_cons.mp h1 with h2 | h2
        · exact Or.inl h2
        · rcases ih h2 with h3 | ⟨z, hz, hcz⟩
          · exact Or.inl h3
          · exact Or.inr ⟨z, by simp [hz], hcz⟩

lemma colon_mem_joinColon {L : List (List Char)} (h : 2 ≤ L.length) : ':' ∈ joinColon L := by
  cases L with
  | nil => simp at h
  | cons x xs =>
    cases xs with
    | nil => simp at h
    | cons y ys =>
      rw [joinColon_cons_cons]
      simp

lemma find_first_special {p : Char → Bool} {d : Char} : ∀ {l : List Char},
    (∀ c ∈ l, p c = true → c = d) → d ∈ l → p d = true → l.find? p = some d := by
  intro l
  induction l with
  | nil => intro _ hd; simp at hd
  | cons c t ih =>
    intro h1 hd hp
    by_cases hc : p c = true
    · have : c = d := h1 c (by simp) hc
      subst this
      exact List.find?_cons_of_pos _ hc
    · have hcd : c ≠ d := fun e => hc (e ▸ hp)
      have hdt : d ∈ t := by
        rcases List.mem_cons.mp hd with h2 | h2
        · exact absurd h2.symm hcd
        · exact h2
      rw [List.find?_cons_of_neg _ (by simpa using hc)]
      exact ih (fun x hx => h1 x (by simp [hx])) hdt hp

lemma special_of_digit {x : Char} (h : isDigitC x = true) :
    decide (x = '.' ∨ x = ':' ∨ x = '%') = false := by
  simp only [decide_eq_false_iff_not]
  intro hx
  rcases hx with rfl | rfl | rfl <;> exact absurd h (by decide)

lemma special_of_hex {x : Char} (h : isHexDigitC x = true) :
    decide (x = '.' ∨ x = ':' ∨ x = '%') = false := by
  simp only [decide_eq_false_iff_not]
  intro hx
  rcases hx with rfl | rfl | rfl <;> exact absurd h (by decide)

lemma mem_string4 {a b c d : Nat} (ha : a < 256) (hb : b < 256) (hc : c < 256) (hd : d < 256)
    {x : Char} (hx : x ∈ string4 a b c d) : isDigitC x = true ∨ x = '.' := by
  simp only [string4, List.mem_append, List.mem_cons] at hx
  rcases hx with h | h
  · exact Or.inl (mem_decStr ha h)
  rcases h with rfl | h
  · exact Or.inr rfl
  rcases h with h | h
  · exact Or.inl (mem_decStr hb h)
  rcases h with rfl | h
  · exact Or.inr rfl
  rcases h with h | h
  · exact Or.inl (mem_decStr hc h)
  rcases h with rfl | h
  · exact Or.inr rfl
  · exact Or.inl (mem_decStr hd h)

lemma mem_joinColon_hex {L : List Nat} (hL : ∀ g ∈ L, g < 65536) {c : Char}
    (hc : c ∈ joinColon (L.map hexStr)) : c = ':' ∨ isHexDigitC c = true := by
  rcases mem_joinColon hc with rfl | ⟨x, hx, hcx⟩
  · exact Or.inl rfl
  · obtain ⟨g, hg, rfl⟩ := List.mem_map.mp hx
    exact Or.inr (mem_hexStr (hL g hg) hcx)

lemma find_special_colon {t : List Char} (hall : ∀ c ∈ t, c = ':' ∨ isHexDigitC c = true)
    (hmem : ':' ∈ t) :
    t.find? (fun c => decide (c = '.' ∨ c = ':' ∨ c = '%')) = some ':' := by
  refine find_first_special (fun c hc hpc => ?_) hmem (by decide)
  rcases hall c hc with rfl | hhex
  · rfl
  · rw [special_of_hex hhex] at hpc
    exact Bool.noConfusion hpc

lemma goParseAddr_colon {s : List Char}
    (hf : s.find? (fun c => decide (c = '.' ∨ c = ':' ∨ c = '%')) = some ':') :
    goParseAddr s = parseIPv6 s := by
  unfold goParseAddr
  rw [hf]
  simp

lemma parseIPv6_not_dcolon {s : List Char} (h : ¬ s.take 2 = [':', ':']) :
    parseIPv6 s = (v6loop 8 [] none s).bind finishV6 := by
  simp [parseIPv6, h]

lemma parseIPv6_dcolon {s : List Char} (h : s.take 2 = [':', ':']) (h2 : s.drop 2 ≠ []) :
    parseIPv6 s = (v6loop 8 [] (some 0) (s.drop 2)).bind finishV6 := by
  simp [parseIPv6, h, h2]

lemma finishV6_some {groups : List Nat} {e : Nat} (h8 : groups.length < 8) :
    finishV6 (groups, some e, []) =
      some (.v6 (groups.take e ++ List.replicate (8 - groups.length) 0 ++ groups.drop e)) := by
  simp [finishV6, h8]

lemma finishV6_full {groups : List Nat} (h8 : ¬ groups.length < 8) :
    finishV6 (groups, none, []) = some (.v6 groups) := by
  simp [finishV6, h8]

lemma take2_ne_dcolon {c : Char} (hc : isHexDigitC c = true) (t : List Char) :
    ¬ (c :: t).take 2 = [':', ':'] := by
  intro e
  rw [List.take_succ_cons] at e
  have := (List.cons.injEq _ _ _ _).mp e
  exact ne_of_hex_of_not hc (by decide) this.1

lemma goParseAddr_v4 {a b c d : Nat} (ha : a < 256) (hb : b < 256) (hc : c < 256)
    (hd : d < 256) : goParseAddr (string4 a b c d) = some (.v4 a b c d) := by
  have hfind : (string4 a b c d).find? (fun c => decide (c = '.' ∨ c = ':' ∨ c = '%')) =
      some '.' := by
    refine find_first_special (fun x hx hpx => ?_) (by simp [string4]) (by decide)
    rcases mem_string4 ha hb hc hd hx with hdig | rfl
    · rw [special_of_digit hdig] at hpx
      exact Bool.noConfusion hpx
    · rfl
  unfold goParseAddr
  rw [hfind]
  simp [parseIPv4Fields_string4 ha hb hc hd]

lemma goParseAddr_v6_full {gs : List Nat} (hlen : gs.length = 8) (hb : ∀ g ∈ gs, g < 65536) :
    goParseAddr (joinColon (gs.map hexStr)) = some (.v6 gs) := by
  cases gs with
  | nil => simp at hlen
  | cons g0 tl =>
    obtain ⟨ch, rt, hj, hch⟩ := joinColon_hex_head g0 (hb g0 (by simp)) tl
    have hfind := find_special_colon (fun c hc => mem_joinColon_hex hb hc)
      (colon_mem_joinColon (by simp only [List.length_map]; omega))
    rw [goParseAddr_colon hfind, parseIPv6_not_dcolon (by rw [hj]; exact take2_ne_dcolon hch rt)]
    rw [v6loop_join (by simp) hb [] none 8 (by omega), List.nil_append]
    rw [show (some ((g0 :: tl), (none : Option Nat), ([] : List Char))).bind finishV6 =
      finishV6 ((g0 :: tl), none, []) from rfl]
    rw [finishV6_full (by omega)]

lemma goParseAddr_v6_4in6 {g6 g7 : Nat} (h6 : g6 < 65536) (h7 : g7 < 65536) :
    goParseAddr (':' :: ':' :: 'f' :: 'f' :: 'f' :: 'f' :: ':' ::
      string4 (g6 / 256) (g6 % 256) (g7 / 256) (g7 % 256)) =
      some (.v6 [0, 0, 0, 0, 0, 65535, g6, g7]) := by
  have hA : g6 / 256 < 256 := by omega
  have hB : g6 % 256 < 256 := by omega
  have hC : g7 / 256 < 256 := by omega
  have hD : g7 % 256 < 256 := by omega
  have hfind : (':' :: ':' :: 'f' :: 'f' :: 'f' :: 'f' :: ':' ::
      string4 (g6 / 256) (g6 % 256) (g7 / 256) (g7 % 256)).find?
        (fun c => decide (c = '.' ∨ c = ':' ∨ c = '%')) = some ':' :=
    List.find?_cons_of_pos _ (by decide)
  rw [goParseAddr_colon hfind, parseIPv6_dcolon (by simp) (by simp)]
  rw [show (':' :: ':' :: 'f' :: 'f' :: 'f' :: 'f' :: ':' ::
      string4 (g6 / 256) (g6 % 256) (g7 / 256) (g7 % 256)).drop 2 =
    hexStr 65535 ++ ':' :: string4 (g6 / 256) (g6 % 256) (g7 / 256) (g7 % 256) from rfl]
  obtain ⟨c0, t0, hd6⟩ : ∃ c t, decStr (g6 / 256) = c :: t := by
    cases he : decStr (g6 / 256) with
    | nil => exact absurd he (decStr_ne_nil _)
    | cons c t => exact ⟨c, t, rfl⟩
  have hc0 : isHexDigitC c0 = true :=
    digit_is_hex (mem_decStr hA (by rw [hd6]; simp))
  have hs4 : string4 (g6 / 256) (g6 % 256) (g7 / 256) (g7 % 256) =
      c0 :: (t0 ++ ('.' :: (decStr (g6 % 256) ++
        ('.' :: (decStr (g7 / 256) ++ ('.' :: decStr (g7 % 256))))))) := by
    rw [string4, hd6, List.cons_append]
  rw [hs4, v6loop_group_colon (by omega) hc0 _, ← hs4, List.nil_append]
  rw [show (7 : Nat) = 6 + 1 from rfl, v6loop_v4tail hA hB hC hD (by simp) (by simp)]
  rw [show (some (([65535] ++ [g6 / 256 * 256 + g6 % 256, g7 / 256 * 256 + g7 % 256]),
      (some 0 : Option Nat), ([] : List Char))).bind finishV6 =
    finishV6 (([65535] ++ [g6 / 256 * 256 + g6 % 256, g7 / 256 * 256 + g7 % 256]),
      some 0, []) from rfl]
  rw [finishV6_some (by simp)]
  have e6 : g6 / 256 * 256 + g6 % 256 = g6 := by omega
  have e7 : g7 / 256 * 256 + g7 % 256 = g7 := by omega
  simp [e6, e7, List.replicate]

lemma goParseAddr_dcolon_only : goParseAddr [':', ':'] = some (.v6 (List.replicate 8 0)) := by
  decide

lemma goParseAddr_v6_ellStart {post : List Nat} (hpost : post ≠ [])
    (hb : ∀ g ∈ post, g < 65536) (hlen : post.length ≤ 6) :
    goParseAddr (':' :: ':' :: joinColon (post.map hexStr)) =
      some (.v6 (List.replicate (8 - post.length) 0 ++ post)) := by
  obtain ⟨p0, pt, rfl⟩ : ∃ x xs, post = x :: xs := by
    cases post with
    | nil => exact absurd rfl hpost
    | cons x xs => exact ⟨x, xs, rfl⟩
  obtain ⟨ch, rt, hj, hch⟩ := joinColon_hex_head p0 (hb p0 (by simp)) pt
  have hfind : (':' :: ':' :: joinColon ((p0 :: pt).map hexStr)).find?
      (fun c => decide (c = '.' ∨ c = ':' ∨ c = '%')) = some ':' :=
    List.find?_cons_of_pos _ (by decide)
  have hd2 : (':' :: ':' :: joinColon ((p0 :: pt).map hexStr)).drop 2 =
      joinColon ((p0 :: pt).map hexStr) := rfl
  have hne2 : (':' :: ':' :: joinColon ((p0 :: pt).map hexStr)).drop 2 ≠ [] := by
    rw [hd2, hj]
    simp
  rw [goParseAddr_colon hfind, parseIPv6_dcolon (by simp) hne2, hd2]
  rw [v6loop_join hpost hb [] (some 0) 8 (by omega), List.nil_append]
  rw [show (some ((p0 :: pt), (some 0 : Option Nat), ([] : List Char))).bind finishV6 =
    finishV6 ((p0 :: pt), some 0, []) from rfl]
  rw [finishV6_some (Nat.lt_of_le_of_lt hlen (by norm_num))]
  simp

lemma goParseAddr_v6_ellEnd {pre : List Nat} (hpre : pre ≠ [])
    (hb : ∀ g ∈ pre, g < 65536) (hlen : pre.length ≤ 6) :
    goParseAddr (joinColon (pre.map hexStr) ++ [':', ':']) =
      some (.v6 (pre ++ List.replicate (8 - pre.length) 0)) := by
  obtain ⟨p0, pt, rfl⟩ : ∃ x xs, pre = x :: xs := by
    cases pre with
    | nil => exact absurd rfl hpre
    | cons x xs => exact ⟨x, xs, rfl⟩
  obtain ⟨ch, rt, hj, hch⟩ := joinColon_hex_head p0 (hb p0 (by simp)) pt
  have hfind : (joinColon ((p0 :: pt).map hexStr) ++ [':', ':']).find?
      (fun c => decide (c = '.' ∨ c = ':' ∨ c = '%')) = some ':' := by
    refine find_special_colon (fun c hc => ?_) (by simp)
    rcases List.mem_append.mp hc with h1 | h1
    · exact mem_joinColon_hex hb h1
    · rcases List.mem_cons.mp h1 with rfl | h2
      · exact Or.inl rfl
      · rcases List.mem_cons.mp h2 with rfl | h3
        · exact Or.inl rfl
        · simp at h3
  rw [goParseAddr_colon hfind,
    parseIPv6_not_dcolon (by rw [hj, List.cons_append]; exact take2_ne_dcolon hch _)]
  rw [v6loop_join_ellEnd hpre hb [] 8 (by omega), List.nil_append]
  rw [show (some ((p0 :: pt), (some (p0 :: pt).length : Option Nat),
      ([] : List Char))).bind finishV6 = finishV6 ((p0 :: pt), some (p0 :: pt).length, [])
    from rfl]
  rw [finishV6_some (Nat.lt_of_le_of_lt hlen (by norm_num))]
  simp [List.take_length, List.drop_length]

lemma goParseAddr_v6_ellMid {pre post : List Nat} (hpre : pre ≠ []) (hpost : post ≠ [])
    (hb : ∀ g ∈ pre, g < 65536) (hb2 : ∀ g ∈ post, g < 65536)
    (hlen : pre.length + post.length ≤ 6) :
    goParseAddr (joinColon (pre.map hexStr) ++ ':' :: ':' :: joinColon (post.map hexStr)) =
      some (.v6 (pre ++ List.replicate (8 - (pre.length + post.length)) 0 ++ post)) := by
  obtain ⟨p0, pt, rfl⟩ : ∃ x xs, pre = x :: xs := by
    cases pre with
    | nil => exact absurd rfl hpre
    | cons x xs => exact ⟨x, xs, rfl⟩
  obtain ⟨ch, rt, hj, hch⟩ := joinColon_hex_head p0 (hb p0 (by simp)) pt
  have hfind : (joinColon ((p0 :: pt).map hexStr) ++
      ':' :: ':' :: joinColon (post.map hexStr)).find?
        (fun c => decide (c = '.' ∨ c = ':' ∨ c = '%')) = some ':' := by
    refine find_special_colon (fun c hc => ?_) (by simp)
    rcases List.mem_append.mp hc with h1 | h1
    · exact mem_joinColon_hex hb h1
    · rcases List.mem_cons.mp h1 with rfl | h2
      · exact Or.inl rfl
      · rcases List.mem_cons.mp h2 with rfl | h3
        · exact Or.inl rfl
        · exact mem_joinColon_hex hb2 h3
  rw [goParseAddr_colon hfind,
    parseIPv6_not_dcolon (by rw [hj, List.cons_append]; exact take2_ne_dcolon hch _)]
  rw [v6loop_join_ellMid hpre hpost hb hb2 [] 8 (by omega), List.nil_append]
  rw [show (some (((p0 :: pt) ++ post), (some (p0 :: pt).length : Option Nat),
      ([] : List Char))).bind finishV6 =
    finishV6 (((p0 :: pt) ++ post), some (p0 :: pt).length, []) from rfl]
  rw [finishV6_some (by simp only [List.length_append]; omega)]
  rw [List.take_left, List.drop_left]
  simp only [List.length_append]

/-- Print–parse roundtrip: `netip.ParseAddr (a.String()) = a` for every
valid address, the key canonicalization fact behind `parseIP`. -/
theorem goParseAddr_printAddr : ∀ {a : Addr}, a.valid → goParseAddr (printAddr a) = some a := by
  intro a hv
  cases a with
  | v4 a b c d =>
    obtain ⟨ha, hb, hc, hd⟩ := hv
    exact goParseAddr_v4 ha hb hc hd
  | v6 gs =>
    obtain ⟨hlen, hbound⟩ := hv
    by_cases h46 : gs.take 6 = [0, 0, 0, 0, 0, 65535]
    · have hpr : printAddr (.v6 gs) = ':' :: ':' :: 'f' :: 'f' :: 'f' :: 'f' :: ':' ::
          string4 (gs.getD 6 0 / 256) (gs.getD 6 0 % 256)
            (gs.getD 7 0 / 256) (gs.getD 7 0 % 256) := by
        simp [printAddr, h46]
      rw [hpr]
      obtain ⟨g0, g1, g2, g3, g4, g5, g6, g7, rfl⟩ := list_eight hlen
      have hc6 : g0 = 0 ∧ g1 = 0 ∧ g2 = 0 ∧ g3 = 0 ∧ g4 = 0 ∧ g5 = 65535 := by
        have h := h46
        rw [show List.take 6 [g0, g1, g2, g3, g4, g5, g6, g7] =
          [g0, g1, g2, g3, g4, g5] from rfl] at h
        simpa using h
      obtain ⟨rfl, rfl, rfl, rfl, rfl, rfl⟩ := hc6
      have h6 : g6 < 65536 := hbound g6 (by simp)
      have h7 : g7 < 65536 := hbound g7 (by simp)
      simpa using goParseAddr_v6_4in6 h6 h7
    · cases hz : zeroRun gs 0 with
      | none =>
        have hpr : printAddr (.v6 gs) = joinColon (gs.map hexStr) := by
          simp [printAddr, h46, hz]
        rw [hpr]
        exact goParseAddr_v6_full hlen hbound
      | some p =>
        obtain ⟨s, l⟩ := p
        have hpr : printAddr (.v6 gs) = joinColon ((gs.take s).map hexStr) ++
            ':' :: ':' :: joinColon ((gs.drop (s + l)).map hexStr) := by
          simp [printAddr, h46, hz]
        rw [hpr]
        obtain ⟨-, hsl, hl2, hdec⟩ := zeroRun_decomp gs 0 s l hz
        rw [Nat.sub_zero] at hsl hdec
        rw [hlen] at hsl
        have hplen : (gs.take s).length = s := by
          rw [List.length_take, hlen]
          omega
        have hqlen : (gs.drop (s + l)).length = 8 - (s + l) := by
          rw [List.length_drop, hlen]
        have hbpre : ∀ g ∈ gs.take s, g < 65536 := fun g hg => hbound g (List.take_subset _ _ hg)
        have hbpost : ∀ g ∈ gs.drop (s + l), g < 65536 :=
          fun g hg => hbound g (List.drop_subset _ _ hg)
        by_cases hpre0 : gs.take s = []
        · have hs0 : s = 0 := by
            rw [hpre0] at hplen
            simpa using hplen.symm
          by_cases hpost0 : gs.drop (s + l) = []
          · have hl8 : l = 8 := by
              rw [hpost0] at hqlen
              simp at hqlen
              omega
            rw [hpre0, hpost0]
            simp only [List.map_nil]
            rw [show joinColon ([] : List (List Char)) = [] from rfl, List.nil_append,
              goParseAddr_dcolon_only]
            refine congrArg (fun t => some (Addr.v6 t)) ?_
            conv_rhs => rw [hdec]
            rw [hpre0, hpost0, hl8]
            simp
          · rw [hpre0]
            simp only [List.map_nil]
            rw [show joinColon ([] : List (List Char)) = [] from rfl, List.nil_append,
              goParseAddr_v6_ellStart hpost0 hbpost (by rw [hqlen]; omega)]
            refine congrArg (fun t => some (Addr.v6 t)) ?_
            have h8l : 8 - (gs.drop (s + l)).length = l := by
              rw [hqlen]
              omega
            rw [h8l]
            conv_rhs => rw [hdec]
            rw [hpre0]
            simp
        · by_cases hpost0 : gs.drop (s + l) = []
          · have hsl8 : s + l = 8 := by
              rw [hpost0] at hqlen
              simp at hqlen
              omega
            rw [hpost0]
            simp only [List.map_nil]
            rw [show (':' :: ':' :: joinColon ([] : List (List Char))) = [':', ':'] from rfl,
              goParseAddr_v6_ellEnd hpre0 hbpre (by rw [hplen]; omega)]
            refine congrArg (fun t => some (Addr.v6 t)) ?_
            have h8l : 8 - (gs.take s).length = l := by
              rw [hplen]
              omega
            rw [h8l]
            conv_rhs => rw [hdec]
            rw [hpost0]
            simp
          · rw [goParseAddr_v6_ellMid hpre0 hpost0 hbpre hbpost
              (by rw [hplen, hqlen]; omega)]
            refine congrArg (fun t => some (Addr.v6 t)) ?_
            have h8l : 8 - ((gs.take s).length + (gs.drop (s + l)).length) = l := by
              rw [hplen, hqlen]
              omega
            rw [h8l]
            conv_rhs => rw [hdec]

lemma hexDigitVal_lt (c : Char) : hexDigitVal c < 16 := by
  unfold hexDigitVal
  split
  · omega
  · split
    · omega
    · split <;> omega

lemma hexVal_aux_lt : ∀ (ds : List Char) (acc : Nat),
    ds.foldl (fun a c => a * 16 + hexDigitVal c) acc < (acc + 1) * 16 ^ ds.length := by
  intro ds
  induction ds with
  | nil => intro acc; simp
  | cons c t ih =>
    intro acc
    simp only [List.foldl_cons, List.length_cons]
    refine lt_of_lt_of_le (ih (acc * 16 + hexDigitVal c)) ?_
    have hd := hexDigitVal_lt c
    calc (acc * 16 + hexDigitVal c + 1) * 16 ^ t.length
        ≤ ((acc + 1) * 16) * 16 ^ t.length := Nat.mul_le_mul_right _ (by omega)
      _ = (acc + 1) * 16 ^ (t.length + 1) := by ring

lemma hexVal_lt_65536 {ds : List Char} (h : ds.length ≤ 4) : hexVal ds < 65536 := by
  have h1 := hexVal_aux_lt ds 0
  have h2 : (16 : Nat) ^ ds.length ≤ 16 ^ 4 := Nat.pow_le_pow_right (by norm_num) h
  have : hexVal ds < 16 ^ ds.length := by
    unfold hexVal
    omega
  omega

lemma parseIPv4Go_valid : ∀ (s : List Char) (val dl : Nat) (fields out : List Nat),
    parseIPv4Go s val dl fields = some out → fields.length ≤ 3 → (∀ x ∈ fields, x < 256) →
    val < 256 → out.length = 4 ∧ ∀ x ∈ out, x < 256 := by
  intro s
  induction s with
  | nil =>
    intro val dl fields out h hf hb hv
    simp only [parseIPv4Go] at h
    split at h
    · exact absurd h (by simp)
    · rename_i hge
      obtain rfl : fields ++ [val] = out := by cases h; rfl
      constructor
      · simp only [List.length_append, List.length_cons, List.length_nil]
        omega
      · intro x hx
        rcases List.mem_append.mp hx with h1 | h1
        · exact hb x h1
        · simp only [List.mem_singleton] at h1
          subst h1
          exact hv
  | cons c rest ih =>
    intro val dl fields out h hf hb hv
    simp only [parseIPv4Go] at h
    split at h
    · split at h
      · exact absurd h (by simp)
      · split at h
        · exact absurd h (by simp)
        · rename_i hd hlz hle
          exact ih _ _ _ _ h hf hb (by omega)
    · split at h
      · split at h
        · exact absurd h (by simp)
        · split at h
          · exact absurd h (by simp)
          · split at h
            · exact absurd h (by simp)
            · rename_i hnd hdot hdl hrest hflen
              refine ih _ _ _ _ h ?_ ?_ (by omega)
              · simp only [List.length_append, List.length_cons, List.length_nil]
                omega
              · intro x hx
                rcases List.mem_append.mp hx with h1 | h1
                · exact hb x h1
                · simp only [List.mem_singleton] at h1
                  subst h1
                  exact hv
      · exact absurd h (by simp)

lemma v6loop_valid : ∀ (rem : Nat) (groups : List Nat) (ell : Option Nat) (s : List Char)
    (groups2 : List Nat) (ell2 : Option Nat) (left : List Char),
    v6loop rem groups ell s = some (groups2, ell2, left) →
    groups.length + rem = 8 →
    (∀ g ∈ groups, g < 65536) →
    (∀ e, ell = some e → e ≤ groups.length) →
    groups2.length ≤ 8 ∧ (∀ g ∈ groups2, g < 65536) ∧
      ∀ e, ell2 = some e → e ≤ groups2.length := by
  intro rem
  induction rem with
  | zero =>
    intro groups ell s g2 e2 lf h hrem hb he
    obtain ⟨rfl, rfl, rfl⟩ : groups = g2 ∧ ell = e2 ∧ s = lf := by
      simp only [v6loop, Option.some.injEq, Prod.mk.injEq] at h
      exact ⟨h.1, h.2.1, h.2.2⟩
    exact ⟨by omega, hb, he⟩
  | succ rem ih =>
    intro groups ell s g2 e2 lf h hrem hb he
    simp only [v6loop] at h
    by_cases h0 : (s.takeWhile isHexDigitC).length = 0
    · rw [if_pos h0] at h
      exact absurd h (by simp)
    rw [if_neg h0] at h
    by_cases h4 : 4 < (s.takeWhile isHexDigitC).length
    · rw [if_pos h4] at h
      exact absurd h (by simp)
    rw [if_neg h4] at h
    have hval : hexVal (s.takeWhile isHexDigitC) < 65536 := hexVal_lt_65536 (by omega)
    have hbext : ∀ g ∈ groups ++ [hexVal (s.takeWhile isHexDigitC)], g < 65536 := by
      intro g hg
      rcases List.mem_append.mp hg with h1 | h1
      · exact hb g h1
      · simp only [List.mem_singleton] at h1
        subst h1
        exact hval
    split at h
    · -- dropWhile is empty: the group ends the string
      obtain ⟨rfl, rfl, rfl⟩ : groups ++ [hexVal (s.takeWhile isHexDigitC)] = g2 ∧
          ell = e2 ∧ ([] : List Char) = lf := by
        simp only [Option.some.injEq, Prod.mk.injEq] at h
        exact ⟨h.1, h.2.1, h.2.2⟩
      refine ⟨by simp only [List.length_append, List.length_cons, List.length_nil]; omega,
        hbext, fun e hee => ?_⟩
      have := he e hee
      simp only [List.length_append, List.length_cons, List.length_nil]
      omega
    · rename_i c r2 hrest
      by_cases hdot : c = '.'
      · rw [if_pos hdot] at h
        by_cases hcnd : ell = none ∧ groups.length ≠ 6
        · rw [if_pos hcnd] at h
          exact absurd h (by simp)
        rw [if_neg hcnd] at h
        by_cases h6 : 6 < groups.length
        · rw [if_pos h6] at h
          exact absurd h (by simp)
        rw [if_neg h6] at h
        split at h
        · rename_i a b c4 d hp4
          have hout := parseIPv4Go_valid _ _ _ _ _ hp4 (by simp) (by simp) (by norm_num)
          have hmem : ∀ x ∈ [a, b, c4, d], x < 256 := hout.2
          obtain ⟨rfl, rfl, rfl⟩ : groups ++ [a * 256 + b, c4 * 256 + d] = g2 ∧
              ell = e2 ∧ ([] : List Char) = lf := by
            simp only [Option.some.injEq, Prod.mk.injEq] at h
            exact ⟨h.1, h.2.1, h.2.2⟩
          refine ⟨?_, ?_, fun e hee => ?_⟩
          · simp only [List.length_append, List.length_cons, List.length_nil]
            omega
          · intro g hg
            rcases List.mem_append.mp hg with h1 | h1
            · exact hb g h1
            · have ha := hmem a (by simp)
              have hbb := hmem b (by simp)
              have hcc := hmem c4 (by simp)
              have hdd := hmem d (by simp)
              simp only [List.mem_cons, List.mem_singleton, List.not_mem_nil, or_false] at h1
              rcases h1 with rfl | rfl
              · omega
              · omega
          · have := he e hee
            simp only [List.length_append, List.length_cons, List.length_nil]
            omega
        · exact absurd h (by simp)
      · rw [if_neg hdot] at h
        by_cases hcol : c = ':'
        · rw [if_pos hcol] at h
          split at h
          · exact absurd h (by simp)
          · rename_i c2 r3
            by_cases hcol2 : c2 = ':'
            · rw [if_pos hcol2] at h
              by_cases hell : ell ≠ none
              · rw [if_pos hell] at h
                exact absurd h (by simp)
              rw [if_neg hell] at h
              by_cases hr3 : r3 = []
              · rw [if_pos hr3] at h
                obtain ⟨rfl, rfl, rfl⟩ : groups ++ [hexVal (s.takeWhile isHexDigitC)] = g2 ∧
                    (some (groups.length + 1) : Option Nat) = e2 ∧ ([] : List Char) = lf := by
                  simp only [Option.some.injEq, Prod.mk.injEq] at h
                  exact ⟨h.1, h.2.1, h.2.2⟩
                refine ⟨?_, hbext, fun e hee => ?_⟩
                · simp only [List.length_append, List.length_cons, List.length_nil]
                  omega
                · obtain rfl : groups.length + 1 = e := by cases hee; rfl
                  simp only [List.length_append, List.length_cons, List.length_nil]
                  omega
              · rw [if_neg hr3] at h
                refine ih _ _ _ _ _ _ h ?_ hbext ?_
                · simp only [List.length_append, List.length_cons, List.length_nil]
                  omega
                · intro e hee
                  obtain rfl : groups.length + 1 = e := by cases hee; rfl
                  simp only [List.length_append, List.length_cons, List.length_nil]
                  omega
            · rw [if_neg hcol2] at h
              refine ih _ _ _ _ _ _ h ?_ hbext ?_
              · simp only [List.length_append, List.length_cons, List.length_nil]
                omega
              · intro e hee
                have := he e hee
                simp only [List.length_append, List.length_cons, List.length_nil]
                omega
        · rw [if_neg hcol] at h
          exact absurd h (by simp)

lemma finishV6_valid {groups : List Nat} {ell : Option Nat} {left : List Char} {a : Addr}
    (h : finishV6 (groups, ell, left) = some a) (hlen : groups.length ≤ 8)
    (hb : ∀ g ∈ groups, g < 65536) (he : ∀ e, ell = some e → e ≤ groups.length) :
    a.valid := by
  dsimp only [finishV6] at h
  split at h
  · exact absurd h (by simp)
  · split at h
    · split at h
      · exact absurd h (by simp)
      · rename_i hlt e
        have hee : e ≤ groups.length := he e rfl
        obtain rfl : Addr.v6 (groups.take e ++ List.replicate (8 - groups.length) 0 ++
            groups.drop e) = a := by cases h; rfl
        constructor
        · simp only [List.length_append, List.length_take, List.length_replicate,
            List.length_drop]
          omega
        · intro g hg
          rcases List.mem_append.mp hg with h1 | h1
          · rcases List.mem_append.mp h1 with h2 | h2
            · exact hb g (List.take_subset _ _ h2)
            · rw [List.eq_of_mem_replicate h2]
              norm_num
          · exact hb g (List.drop_subset _ _ h1)
    · split at h
      · obtain rfl : Addr.v6 groups = a := by cases h; rfl
        rename_i hnlt
        exact ⟨by omega, hb⟩
      · exact absurd h (by simp)

lemma parseIPv6_valid {s : List Char} {a : Addr} (h : parseIPv6 s = some a) : a.valid := by
  unfold parseIPv6 at h
  split at h
  · split at h
    · obtain rfl : Addr.v6 (List.replicate 8 0) = a := by cases h; rfl
      constructor
      · simp
      · intro g hg
        rw [List.eq_of_mem_replicate hg]
        norm_num
    · obtain ⟨⟨g2, e2, lf⟩, h1, h2⟩ := Option.bind_eq_some.mp h
      obtain ⟨hl8, hbb, hee⟩ := v6loop_valid _ _ _ _ _ _ _ h1 (by simp) (by simp)
        (by intro e hee; cases hee; simp)
      exact finishV6_valid h2 hl8 hbb hee
  · obtain ⟨⟨g2, e2, lf⟩, h1, h2⟩ := Option.bind_eq_some.mp h
    obtain ⟨hl8, hbb, hee⟩ := v6loop_valid _ _ _ _ _ _ _ h1 (by simp) (by simp) (by simp)
    exact finishV6_valid h2 hl8 hbb hee

lemma goParseAddr_valid {s : List Char} {a : Addr} (h : goParseAddr s = some a) : a.valid := by
  unfold goParseAddr at h
  split at h
  · rename_i c hf
    split at h
    · split at h
      · rename_i a0 b0 c0 d0 hp4
        have hout := parseIPv4Go_valid _ _ _ _ _ hp4 (by simp) (by simp) (by norm_num)
        obtain rfl : Addr.v4 a0 b0 c0 d0 = a := by cases h; rfl
        exact ⟨hout.2 a0 (by simp), hout.2 b0 (by simp), hout.2 c0 (by simp),
          hout.2 d0 (by simp)⟩
      · exact absurd h (by simp)
    · split at h
      · exact parseIPv6_valid h
      · exact absurd h (by simp)
  · exact absurd h (by simp)

/-- The characters that can occur in a printed address. -/
def ipChar (c : Char) : Bool :=
  isHexDigitC c || decide (c = ':') || decide (c = '.')

lemma ipChar_of_hex {x : Char} (hx : isHexDigitC x = true) : ipChar x = true := by
  simp [ipChar, hx]

lemma mem_printAddr {a : Addr} (hv : a.valid) {c : Char} (hc : c ∈ printAddr a) :
    ipChar c = true := by
  cases a with
  | v4 a b c4 d =>
    obtain ⟨ha, hb, hcc, hd⟩ := hv
    rcases mem_string4 ha hb hcc hd hc with h | rfl
    · exact ipChar_of_hex (digit_is_hex h)
    · decide
  | v6 gs =>
    obtain ⟨hlen, hbound⟩ := hv
    obtain ⟨g0, g1, g2, g3, g4, g5, g6, g7, rfl⟩ := list_eight hlen
    revert hc
    simp only [printAddr]
    split
    · intro hc
      have h6 : g6 < 65536 := hbound g6 (by simp)
      have h7 : g7 < 65536 := hbound g7 (by simp)
      rw [show ([g0, g1, g2, g3, g4, g5, g6, g7].getD 6 0) = g6 from rfl,
        show ([g0, g1, g2, g3, g4, g5, g6, g7].getD 7 0) = g7 from rfl] at hc
      simp only [List.mem_cons] at hc
      rcases hc with rfl | rfl | rfl | rfl | rfl | rfl | rfl | hc
      · decide
      · decide
      · decide
      · decide
      · decide
      · decide
      · decide
      · rcases mem_string4 (by omega) (by omega) (by omega) (by omega) hc with h | rfl
        · exact ipChar_of_hex (digit_is_hex h)
        · decide
    · split
      · intro hc
        exact (mem_joinColon_hex hbound hc).elim (fun e => by rw [e]; decide) ipChar_of_hex
      · rename_i s l hz
        intro hc
        rcases List.mem_append.mp hc with h1 | h1
        · exact (mem_joinColon_hex (fun g hg => hbound g (List.take_subset _ _ hg)) h1).elim
            (fun e => by rw [e]; decide) ipChar_of_hex
        · rcases List.mem_cons.mp h1 with rfl | h2
          · decide
          · rcases List.mem_cons.mp h2 with rfl | h3
            · decide
            · exact (mem_joinColon_hex (fun g hg => hbound g (List.drop_subset _ _ hg)) h3).elim
                (fun e => by rw [e]; decide) ipChar_of_hex

lemma printAddr_ne_nil {a : Addr} (hv : a.valid) : printAddr a ≠ [] := by
  cases a with
  | v4 a b c d =>
    intro e
    exact decStr_ne_nil a (List.append_eq_nil.mp e).1
  | v6 gs =>
    obtain ⟨hlen, hbound⟩ := hv
    simp only [printAddr]
    split
    · simp
    · split
      · rename_i hz
        cases gs with
        | nil => simp at hlen
        | cons g0 tl =>
          obtain ⟨ch, rt, hj, hch⟩ := joinColon_hex_head g0 (hbound g0 (by simp)) tl
          rw [hj]
          simp
      · intro e
        exact absurd (List.append_eq_nil.mp e).2 (by simp)

lemma ipChar_ne {c d : Char} (h : ipChar c = true) (hd : ipChar d = false) : c ≠ d := by
  intro e
  rw [e, hd] at h
  exact Bool.noConfusion h

lemma ipChar_not_space {c : Char} (h : ipChar c = true) : goIsSpace c = false := by
  simp only [ipChar, Bool.or_eq_true, decide_eq_true_eq] at h
  rcases h with (hh | rfl) | rfl
  · simp only [isHexDigitC, decide_eq_true_eq] at hh
    simp only [goIsSpace, decide_eq_false_iff_not]
    omega
  · decide
  · decide

lemma ipChar_not_ctl {c : Char} (h : ipChar c = true) : isCtlOrSpace c = false := by
  simp only [ipChar, Bool.or_eq_true, decide_eq_true_eq] at h
  rcases h with (hh | rfl) | rfl
  · simp only [isHexDigitC, decide_eq_true_eq] at hh
    simp only [isCtlOrSpace, decide_eq_false_iff_not]
    omega
  · decide
  · decide

lemma dropWhile_eq_self_of {p : Char → Bool} {s : List Char} (h : ∀ c ∈ s, p c = false) :
    s.dropWhile p = s := by
  cases s with
  | nil => rfl
  | cons a t => simp [List.dropWhile_cons, h a (by simp)]

lemma trimSpaceL_eq_self {s : List Char} (h : ∀ c ∈ s, goIsSpace c = false) :
    trimSpaceL s = s := by
  unfold trimSpaceL
  rw [dropWhile_eq_self_of h, dropWhile_eq_self_of (fun c hc => h c (List.mem_reverse.mp hc)),
    List.reverse_reverse]

lemma parseIPL_printAddr {a : Addr} (hv : a.valid) : parseIPL (printAddr a) = printAddr a := by
  have hchar : ∀ c ∈ printAddr a, ipChar c = true := fun c hc => mem_printAddr hv hc
  have hne := printAddr_ne_nil hv
  have htrim : trimSpaceL (printAddr a) = printAddr a :=
    trimSpaceL_eq_self (fun c hc => ipChar_not_space (hchar c hc))
  have hany : (printAddr a).any isCtlOrSpace = false := by
    rw [List.any_eq_false]
    intro c hc
    rw [ipChar_not_ctl (hchar c hc)]
    simp
  obtain ⟨c0, t0, he⟩ : ∃ c t, printAddr a = c :: t := by
    cases hh : printAddr a with
    | nil => exact absurd hh hne
    | cons c t => exact ⟨c, t, rfl⟩
  have hc0 : ipChar c0 = true := hchar c0 (by rw [he]; simp)
  have hnb : ¬(2 ≤ (printAddr a).length ∧ (printAddr a).head? = some '[' ∧
      (printAddr a).getLast? = some ']') := by
    rintro ⟨-, h2, -⟩
    rw [he] at h2
    simp only [List.head?_cons, Option.some.injEq] at h2
    exact ipChar_ne hc0 (by decide) h2
  have hzone : (printAddr a).takeWhile (fun c => decide (c ≠ '%')) = printAddr a :=
    (takeWhile_all (fun c hc => decide_eq_true (ipChar_ne (hchar c hc) (by decide)))).1
  unfold parseIPL
  dsimp only
  rw [if_neg hne, htrim, hany]
  simp only [Bool.false_eq_true, if_false]
  rw [if_neg hnb, hzone, goParseAddr_printAddr hv]

lemma parseIP_core_shape (t : List Char) :
    (match goParseAddr t with | some a => printAddr a | none => []) = [] ∨
      ∃ a, a.valid ∧
        (match goParseAddr t with | some a => printAddr a | none => []) = printAddr a := by
  cases hg : goParseAddr t with
  | none => exact Or.inl rfl
  | some a => exact Or.inr ⟨a, goParseAddr_valid hg, rfl⟩

lemma parseIPL_shape (s : List Char) :
    parseIPL s = [] ∨ ∃ a, a.valid ∧ parseIPL s = printAddr a := by
  unfold parseIPL
  dsimp only
  split
  · exact Or.inl rfl
  split
  · exact Or.inl rfl
  exact parseIP_core_shape _

/-- `parseIP` is idempotent: re-validating an already canonical result
returns it unchanged. -/
theorem parseIPL_idem (s : List Char) : parseIPL (parseIPL s) = parseIPL s := by
  rcases parseIPL_shape s with h | ⟨a, hva, h⟩
  · rw [h]
    rfl
  · rw [h, parseIPL_printAddr hva]

lemma lastIndexOf_eq_none {s : List Char} {c : Char} (h : c ∉ s) : lastIndexOf s c = none := by
  induction s with
  | nil => rfl
  | cons a t ih =>
    simp only [lastIndexOf]
    rw [ih (fun hm => h (by simp [hm]))]
    rw [if_neg (fun e => h (by simp [e.symm]))]

lemma lastIndexOf_isSome {s : List Char} {c : Char} (h : c ∈ s) :
    ∃ i, lastIndexOf s c = some i := by
  induction s with
  | nil => simp at h
  | cons a t ih =>
    simp only [lastIndexOf]
    cases hl : lastIndexOf t c with
    | some i => exact ⟨i + 1, rfl⟩
    | none =>
      rcases List.mem_cons.mp h with rfl | hm
      · exact ⟨0, by rw [if_pos rfl]⟩
      · obtain ⟨i, hi⟩ := ih hm
        rw [hl] at hi
        exact absurd hi (by simp)

lemma twoColons {s : List Char} (h : 2 ≤ s.count ':') :
    ∃ i, lastIndexOf s ':' = some i ∧ ':' ∈ s.take i := by
  induction s with
  | nil => simp at h
  | cons a t ih =>
    by_cases ht : 2 ≤ t.count ':'
    · obtain ⟨i, hli, hci⟩ := ih ht
      refine ⟨i + 1, ?_, ?_⟩
      · simp only [lastIndexOf, hli]
      · rw [List.take_succ_cons]
        simp [hci]
    · have hc : a = ':' ∧ 1 ≤ t.count ':' := by
        rw [List.count_cons] at h
        constructor
        · by_contra hne
          rw [if_neg (by simpa using hne)] at h
          omega
        · by_cases he : a == ':'
          · rw [if_pos he] at h
            omega
          · rw [if_neg he] at h
            omega
      have hmem : ':' ∈ t := by
        rw [← List.count_pos_iff]
        omega
      obtain ⟨i, hi⟩ := lastIndexOf_isSome hmem
      refine ⟨i + 1, ?_, ?_⟩
      · simp only [lastIndexOf, hi]
      · rw [List.take_succ_cons, hc.1]
        simp

lemma count_colon_zero {x : List Char} (h : ':' ∉ x) : x.count ':' = 0 :=
  List.count_eq_zero.mpr (fun hm => h hm)

lemma count_joinColon {L : List (List Char)} (h : ∀ x ∈ L, ':' ∉ x) (hL : L ≠ []) :
    (joinColon L).count ':' = L.length - 1 := by
  induction L with
  | nil => exact absurd rfl hL
  | cons x xs ih =>
    cases xs with
    | nil =>
      simp only [joinColon, List.length_cons, List.length_nil]
      rw [count_colon_zero (h x (by simp))]
    | cons y ys =>
      rw [joinColon_cons_cons, List.count_append, List.count_cons_self,
        count_colon_zero (h x (by simp)), ih (fun z hz => h z (by simp [hz])) (by simp)]
      simp only [List.length_cons]
      omega

lemma colon_not_in_string4 {a b c d : Nat} (ha : a < 256) (hb : b < 256) (hc : c < 256)
    (hd : d < 256) : ':' ∉ string4 a b c d := by
  intro hm
  rcases mem_string4 ha hb hc hd hm with h | h
  · exact absurd h (by decide)
  · exact absurd h (by decide)

lemma colon_not_in_hexStr {g : Nat} (hg : g < 65536) : ':' ∉ hexStr g := by
  intro hm
  exact absurd (mem_hexStr hg hm) (by decide)

lemma two_colons_printAddr_v6 {gs : List Nat} (hlen : gs.length = 8)
    (hb : ∀ g ∈ gs, g < 65536) : 2 ≤ (printAddr (.v6 gs)).count ':' := by
  simp only [printAddr]
  split
  · simp [List.count_cons]
  · split
    · rw [count_joinColon (fun x hx => ?_) (by simp [← List.length_eq_zero, hlen])]
      · simp only [List.length_map, hlen]
        omega
      · obtain ⟨g, hg, rfl⟩ := List.mem_map.mp hx
        exact colon_not_in_hexStr (hb g hg)
    · rw [List.count_append]
      rw [List.count_cons_self, List.count_cons_self]
      omega

lemma stripPort_printAddr {a : Addr} (hv : a.valid) : stripPort (printAddr a) = printAddr a := by
  unfold stripPort splitHostPort
  split
  · rfl
  · rename_i i heq
    cases a with
    | v4 a b c d =>
      obtain ⟨ha, hb, hc, hd⟩ := hv
      exact absurd heq (by
        rw [show printAddr (.v4 a b c d) = string4 a b c d from rfl,
          lastIndexOf_eq_none (colon_not_in_string4 ha hb hc hd)]
        simp)
    | v6 gs =>
      obtain ⟨hlen, hbound⟩ := hv
      obtain ⟨i2, hli, hci⟩ := twoColons (two_colons_printAddr_v6 hlen hbound)
      obtain rfl : i2 = i := by
        rw [hli] at heq
        exact Option.some.inj heq
      have hvv : (Addr.v6 gs).valid := ⟨hlen, hbound⟩
      have hhead : ¬ (printAddr (Addr.v6 gs)).head? = some '[' := by
        obtain ⟨c0, t0, he⟩ : ∃ c t, printAddr (Addr.v6 gs) = c :: t := by
          cases hh : printAddr (Addr.v6 gs) with
          | nil => exact absurd hh (printAddr_ne_nil hvv)
          | cons c t => exact ⟨c, t, rfl⟩
        rw [he]
        simp only [List.head?_cons, Option.some.injEq]
        exact ipChar_ne (mem_printAddr hvv (by rw [he]; simp)) (by decide)
      rw [if_neg hhead]
      have hcontains : ((printAddr (Addr.v6 gs)).take i2).contains ':' = true := by
        simp only [List.contains_eq_any_beq, List.any_eq_true]
        exact ⟨':', hci, by simp⟩
      dsimp only
      rw [if_pos hcontains]
      rfl

lemma ipChar_toNat {c : Char} (h : ipChar c = true) :
    (48 ≤ c.toNat ∧ c.toNat ≤ 57) ∨ (97 ≤ c.toNat ∧ c.toNat ≤ 102) ∨
      (65 ≤ c.toNat ∧ c.toNat ≤ 70) ∨ c.toNat = 58 ∨ c.toNat = 46 := by
  simp only [ipChar, isHexDigitC, Bool.or_eq_true, decide_eq_true_eq] at h
  rcases h with (hh | rfl) | rfl
  · tauto
  · right; right; right; left; rfl
  · right; right; right; right; rfl

lemma getClientIP_canonical {a : Addr} (hv : a.valid) :
    getClientIP [] [] (printAddr a) = printAddr a := by
  unfold getClientIP
  rw [if_neg (by simp)]
  dsimp only
  rw [stripPort_printAddr hv,
    trimSpaceL_eq_self (fun c hc => ipChar_not_space (mem_printAddr hv hc)),
    parseIPL_printAddr hv, if_pos (printAddr_ne_nil hv)]
  split
  · rename_i hcond
    exfalso
    rcases hcond with h1 | h2
    · obtain ⟨c, hc, hp⟩ := List.any_eq_true.mp h1
      have hic := ipChar_toNat (mem_printAddr hv hc)
      simp only [Bool.or_eq_true, decide_eq_true_eq] at hp
      rcases hp with rfl | h10 | h13 | h9
      · have h32 : (' ' : Char).toNat = 32 := rfl
        omega
      · omega
      · omega
      · omega
    · have hmem : ',' ∈ printAddr a := by
        simpa [List.contains_eq_any_beq, List.any_eq_true] using h2
      have := ipChar_toNat (mem_printAddr hv hmem)
      have h44 : (',' : Char).toNat = 44 := rfl
      omega
  · rfl

lemma firstValid_shape : ∀ (L : List (List Char)),
    firstValid L = [] ∨ ∃ s, firstValid L = parseIPL s := by
  intro L
  induction L with
  | nil => exact Or.inl rfl
  | cons p rest ih =>
    simp only [firstValid]
    split
    · exact Or.inr ⟨stripPort p, rfl⟩
    · exact ih

lemma getClientIP_shape (th hv ra : List Char) :
    getClientIP th hv ra = [] ∨ ∃ s, getClientIP th hv ra = parseIPL s := by
  unfold getClientIP
  split
  · split
    · exact firstValid_shape _
    · exact Or.inl rfl
  · dsimp only
    split
    · split
      · exact Or.inl rfl
      · exact Or.inr ⟨trimSpaceL (stripPort ra), rfl⟩
    · exact Or.inl rfl

lemma firstValid_spec : ∀ (L : List (List Char)), firstValid L ≠ [] →
    ∃ l1 p l2, L = l1 ++ p :: l2 ∧ (∀ q ∈ l1, parseIPL (stripPort q) = []) ∧
      parseIPL (stripPort p) ≠ [] ∧ firstValid L = parseIPL (stripPort p) := by
  intro L
  induction L with
  | nil => intro h; exact absurd rfl h
  | cons p rest ih =>
    intro h
    by_cases hp : parseIPL (stripPort p) = []
    · have hfv : firstValid (p :: rest) = firstValid rest := by
        simp only [firstValid]
        rw [if_neg (by simpa using hp)]
      obtain ⟨l1, q, l2, he, hall, hq, hval⟩ := ih (by rw [← hfv]; exact h)
      refine ⟨p :: l1, q, l2, by rw [he, List.cons_append], ?_, hq, by rw [hfv, hval]⟩
      intro x hx
      rcases List.mem_cons.mp hx with rfl | h2
      · exact hp
      · exact hall x h2
    · refine ⟨[], p, rest, rfl, by simp, hp, ?_⟩
      simp only [firstValid]
      rw [if_pos (by simpa using hp)]

lemma firstValid_empty_iff : ∀ (L : List (List Char)),
    firstValid L = [] ↔ ∀ p ∈ L, parseIPL (stripPort p) = [] := by
  intro L
  induction L with
  | nil => simp [firstValid]
  | cons p rest ih =>
    simp only [firstValid]
    constructor
    · intro h x hx
      by_cases hp : parseIPL (stripPort p) = []
      · rw [if_neg (by simpa using hp)] at h
        rcases List.mem_cons.mp hx with rfl | h2
        · exact hp
        · exact (ih.mp h) x h2
      · rw [if_pos (by simpa using hp)] at h
        exact absurd h hp
    · intro h
      rw [if_neg (by simpa using h p (by simp))]
      exact ih.mpr (fun x hx => h x (by simp [hx]))

lemma getClientIP_header {th hv ra : List Char} (hth : th ≠ []) (hhv : hv ≠ []) :
    getClientIP th hv ra = firstValid (splitAndTrim hv ',') := by
  unfold getClientIP
  rw [if_pos hth, if_pos hhv]

lemma getClientIP_header_empty {th ra : List Char} (hth : th ≠ []) :
    getClientIP th [] ra = [] := by
  unfold getClientIP
  rw [if_pos hth, if_neg (by simp)]

lemma lookupV_updateV_self : ∀ (st : Store) (ip : String) (v nv : Visitor),
    lookupV st ip = some v → lookupV (updateV st ip nv) ip = some nv := by
  intro st ip v nv h
  induction st with
  | nil => simp [lookupV] at h
  | cons p rest ih =>
    obtain ⟨k, w⟩ := p
    by_cases hk : k = ip
    · simp only [updateV, lookupV, if_pos hk]
    · simp only [lookupV, if_neg hk] at h
      simp only [updateV, lookupV, if_neg hk]
      exact ih h

lemma updateV_self : ∀ (st : Store) (ip : String) (v : Visitor),
    lookupV st ip = some v → updateV st ip v = st := by
  intro st ip v h
  induction st with
  | nil => simp [lookupV] at h
  | cons p rest ih =>
    obtain ⟨k, w⟩ := p
    by_cases hk : k = ip
    · simp only [lookupV, if_pos hk, Option.some.injEq] at h
      simp only [updateV, if_pos hk, h]
    · simp only [lookupV, if_neg hk] at h
      simp only [updateV, if_neg hk]
      rw [ih h]

lemma length_updateV : ∀ (st : Store) (ip : String) (nv : Visitor),
    (updateV st ip nv).length = st.length := by
  intro st ip nv
  induction st with
  | nil => rfl
  | cons p rest ih =>
    obtain ⟨k, w⟩ := p
    by_cases hk : k = ip
    · simp [updateV, if_pos hk]
    · simp [updateV, if_neg hk, ih]

lemma allow_existing {rl : RateLimiter} {store : Store} {ip : String} {v : Visitor} (now : Int)
    (hip : ¬ trimSpaceL ip.data = []) (hl : lookupV store ip = some v) :
    allow rl store ip now =
      (let elapsed := now - v.lastToken
       let tokensToAdd64 : Int := if 0 < rl.rate then Int.tdiv elapsed rl.rate else 0
       let visitor1 : Visitor :=
         if 0 < tokensToAdd64 then
           let t := if rl.capacity < tokensToAdd64 then rl.capacity else tokensToAdd64
           let tok := v.tokens + t
           let tok2 := if rl.capacity < tok then rl.capacity else tok
           { tokens := tok2, lastToken := v.lastToken + t * rl.rate }
         else v
       if 0 < visitor1.tokens then
         (true, updateV store ip { visitor1 with tokens := visitor1.tokens - 1 })
       else (false, updateV store ip visitor1)) := by
  unfold allow
  rw [if_neg hip, hl]

lemma allow_new {rl : RateLimiter} {store : Store} {ip : String} (now : Int)
    (hip : ¬ trimSpaceL ip.data = []) (hl : lookupV store ip = none)
    (hcap : ¬(0 < rl.maxClients ∧ rl.maxClients ≤ (store.length : Int))) :
    allow rl store ip now =
      (true, (ip, { tokens := rl.capacity - 1, lastToken := now }) :: store) := by
  unfold allow
  rw [if_neg hip, hl, if_neg hcap]

lemma allow_reject_cap {rl : RateLimiter} {store : Store} {ip : String} (now : Int)
    (hip : ¬ trimSpaceL ip.data = []) (hl : lookupV store ip = none)
    (hcap : 0 < rl.maxClients ∧ rl.maxClients ≤ (store.length : Int)) :
    allow rl store ip now = (false, store) := by
  unfold allow
  rw [if_neg hip, hl, if_pos hcap]

lemma allow_elapsed_zero {rl : RateLimiter} {store : Store} {ip : String} {t now : Int}
    (hip : ¬ trimSpaceL ip.data = []) (hl : lookupV store ip = some ⟨t, now⟩) :
    allow rl store ip now =
      if 0 < t then (true, updateV store ip ⟨t - 1, now⟩) else (false, store) := by
  rw [allow_existing now hip hl]
  have hz : now - (Visitor.mk t now).lastToken = 0 := by simp
  dsimp only
  rw [hz]
  have h0 : (if 0 < rl.rate then Int.tdiv 0 rl.rate else 0) = 0 := by
    split
    · exact Int.zero_tdiv _
    · rfl
  rw [h0, if_neg (by omega : ¬ (0 : Int) < 0)]
  by_cases ht : 0 < t
  · rw [if_pos ht, if_pos ht]
  · rw [if_neg ht, if_neg ht, updateV_self store ip _ hl]

lemma allowN_drain {rl : RateLimiter} {ip : String} {now : Int}
    (hip : ¬ trimSpaceL ip.data = []) :
    ∀ (k : Nat) (store : Store) (t : Int), lookupV store ip = some ⟨t, now⟩ → 0 ≤ t →
    (allowN rl store ip now k).1 =
      List.replicate (min k t.toNat) true ++ List.replicate (k - t.toNat) false := by
  intro k
  induction k with
  | zero => intro store t h ht; simp [allowN]
  | succ k ih =>
    intro store t h ht
    simp only [allowN]
    rw [allow_elapsed_zero hip h]
    by_cases htp : 0 < t
    · rw [if_pos htp]
      dsimp only
      rw [ih (updateV store ip ⟨t - 1, now⟩) (t - 1) (lookupV_updateV_self _ _ _ _ h) (by omega)]
      have h1 : min (k + 1) t.toNat = min k (t - 1).toNat + 1 := by omega
      have h2 : (k + 1) - t.toNat = k - (t - 1).toNat := by omega
      rw [h1, h2, List.replicate_succ, List.cons_append]
    · rw [if_neg htp]
      dsimp only
      rw [ih store t h ht]
      have h1 : min (k + 1) t.toNat = 0 := by omega
      have h2 : min k t.toNat = 0 := by omega
      have h3 : (k + 1) - t.toNat = (k - t.toNat) + 1 := by omega
      rw [h1, h2, h3, List.replicate_succ]
      simp

lemma lookupV_eraseV_self (st : Store) (k : String) : lookupV (eraseV st k) k = none := by
  induction st with
  | nil => rfl
  | cons p rest ih =>
    obtain ⟨kk, w⟩ := p
    unfold eraseV at ih ⊢
    rw [List.filter_cons]
    by_cases hk : kk = k
    · rw [if_neg (by simpa using hk)]
      exact ih
    · rw [if_pos (by simpa using hk)]
      simp only [lookupV, if_neg hk]
      exact ih

lemma lookupV_eraseV_ne {st : Store} {k ip : String} (h : k ≠ ip) :
    lookupV (eraseV st ip) k = lookupV st k := by
  induction st with
  | nil => rfl
  | cons p rest ih =>
    obtain ⟨kk, w⟩ := p
    unfold eraseV at ih ⊢
    rw [List.filter_cons]
    by_cases hk : kk = ip
    · rw [if_neg (by simpa using hk)]
      rw [ih]
      simp only [lookupV]
      rw [if_neg (by rw [hk]; exact fun e => h e.symm)]
    · rw [if_pos (by simpa using hk)]
      simp only [lookupV]
      by_cases hkk : kk = k
      · rw [if_pos hkk, if_pos hkk]
      · rw [if_neg hkk, if_neg hkk]
        exact ih

lemma cleanupStep_of_none {cutoff : Int} {st : Store} {ip : String}
    (h : lookupV st ip = none) : cleanupStep cutoff st ip = st := by
  unfold cleanupStep
  rw [h]

lemma cleanupStep_of_stale {cutoff : Int} {st : Store} {ip : String} {v : Visitor}
    (h : lookupV st ip = some v) (hs : v.lastToken < cutoff) :
    cleanupStep cutoff st ip = eraseV st ip := by
  unfold cleanupStep
  rw [h]
  show (if v.lastToken < cutoff then eraseV st ip else st) = eraseV st ip
  rw [if_pos hs]

lemma cleanupStep_of_fresh {cutoff : Int} {st : Store} {ip : String} {v : Visitor}
    (h : lookupV st ip = some v) (hs : ¬ v.lastToken < cutoff) :
    cleanupStep cutoff st ip = st := by
  unfold cleanupStep
  rw [h]
  show (if v.lastToken < cutoff then eraseV st ip else st) = st
  rw [if_neg hs]

lemma lookupV_cleanupStep_none {cutoff : Int} {st : Store} {k : String} (b : String)
    (h : lookupV st k = none) : lookupV (cleanupStep cutoff st b) k = none := by
  cases hb : lookupV st b with
  | none => rw [cleanupStep_of_none hb]; exact h
  | some v =>
    by_cases hs : v.lastToken < cutoff
    · rw [cleanupStep_of_stale hb hs]
      by_cases hk : k = b
      · subst hk; exact lookupV_eraseV_self st k
      · rw [lookupV_eraseV_ne hk]; exact h
    · rw [cleanupStep_of_fresh hb hs]; exact h

lemma cleanupBatch_none : ∀ (batch : List String) (st : Store) (k : String) (cutoff : Int),
    lookupV st k = none → lookupV (cleanupBatch st batch cutoff) k = none := by
  intro batch
  induction batch with
  | nil => intro st k cutoff h; exact h
  | cons b rest ih =>
    intro st k cutoff h
    simp only [cleanupBatch, List.foldl_cons]
    exact ih _ _ _ (lookupV_cleanupStep_none b h)

lemma cleanupBatch_stale : ∀ (batch : List String) (st : Store) (k : String) (cutoff : Int)
    (v : Visitor), k ∈ batch → lookupV st k = some v → v.lastToken < cutoff →
    lookupV (cleanupBatch st batch cutoff) k = none := by
  intro batch
  induction batch with
  | nil => intro st k cutoff v hm; simp at hm
  | cons b rest ih =>
    intro st k cutoff v hm h hs
    simp only [cleanupBatch, List.foldl_cons]
    by_cases hbk : b = k
    · subst hbk
      rw [show List.foldl (cleanupStep cutoff) (cleanupStep cutoff st b) rest =
        cleanupBatch (cleanupStep cutoff st b) rest cutoff from rfl]
      exact cleanupBatch_none rest _ _ _
        (by rw [cleanupStep_of_stale h hs]; exact lookupV_eraseV_self st b)
    · have hm2 : k ∈ rest := by
        rcases List.mem_cons.mp hm with rfl | h2
        · exact absurd rfl hbk
        · exact h2
      have hpres : lookupV (cleanupStep cutoff st b) k = some v := by
        cases hb : lookupV st b with
        | none => rw [cleanupStep_of_none hb]; exact h
        | some w =>
          by_cases hw : w.lastToken < cutoff
          · rw [cleanupStep_of_stale hb hw, lookupV_eraseV_ne (fun e => hbk e.symm)]
            exact h
          · rw [cleanupStep_of_fresh hb hw]; exact h
      exact ih _ _ _ _ hm2 hpres hs

lemma cleanupBatch_fresh : ∀ (batch : List String) (st : Store) (k : String) (cutoff : Int)
    (v : Visitor), lookupV st k = some v → ¬ v.lastToken < cutoff →
    lookupV (cleanupBatch st batch cutoff) k = some v := by
  intro batch
  induction batch with
  | nil => intro st k cutoff v h _; exact h
  | cons b rest ih =>
    intro st k cutoff v h hs
    simp only [cleanupBatch, List.foldl_cons]
    have hpres : lookupV (cleanupStep cutoff st b) k = some v := by
      by_cases hbk : b = k
      · subst hbk
        rw [cleanupStep_of_fresh h hs]
        exact h
      · cases hb : lookupV st b with
        | none => rw [cleanupStep_of_none hb]; exact h
        | some w =>
          by_cases hw : w.lastToken < cutoff
          · rw [cleanupStep_of_stale hb hw, lookupV_eraseV_ne (fun e => hbk e.symm)]
            exact h
          · rw [cleanupStep_of_fresh hb hw]; exact h
    exact ih _ _ _ _ hpres hs

lemma newRateLimiter_capacity (rpm : Int) :
    1 ≤ (newRateLimiter rpm).capacity ∧ (newRateLimiter rpm).capacity ≤ 1000000 := by
  unfold newRateLimiter normalizeRPM
  dsimp only
  split
  · norm_num
  · split <;> omega

lemma newRateLimiter_maxClients (rpm : Int) : (newRateLimiter rpm).maxClients = 0 := rfl

/-- C5: construction normalizes `requestsPerMinute`: non-positive input
gives effective capacity 30, input above one million is clamped to one
million, the resulting rate is strictly positive in every case, and the
divisor used by `Allow`'s guarded division is never zero. -/
theorem claim_C5_normalization (rpm : Int) :
    (rpm ≤ 0 → (newRateLimiter rpm).capacity = 30) ∧
    (1000000 < rpm → (newRateLimiter rpm).capacity = 1000000) ∧
    0 < (newRateLimiter rpm).rate ∧
    (newRateLimiter rpm).rate ≠ 0 := by
  unfold newRateLimiter normalizeRPM
  dsimp only
  refine ⟨fun h1 => ?_, fun h2 => ?_, ?_, ?_⟩
  · rw [if_pos h1]
  · rw [if_neg (by omega), if_pos h2]
  · split_ifs <;> omega
  · split_ifs <;> omega

/-- Evaluation of C5 at concrete inputs. -/
theorem claim_C5_normalization_witness :
    ((-5 : Int) ≤ 0 ∧ (newRateLimiter (-5)).capacity = 30) ∧
      ((1000000 : Int) < 2000000 ∧ (newRateLimiter 2000000).capacity = 1000000) :=
  ⟨⟨by decide, (claim_C5_normalization (-5)).1 (by decide)⟩,
   ⟨by decide, (claim_C5_normalization 2000000).2.1 (by decide)⟩⟩

lemma allow_empty (rl : RateLimiter) (store : Store) (ip : String) (now : Int)
    (h : trimSpaceL ip.data = []) :
    allow rl store ip now = (false, store) := by
  unfold allow
  rw [if_pos h]

/-- C6: an empty or all-whitespace key is rejected before any store
access: `Allow` returns `false` and the store is returned unchanged. -/
theorem claim_C6_empty_key (rl : RateLimiter) (store : Store) (ip : String) (now : Int)
    (h : trimSpaceL ip.data = []) :
    allow rl store ip now = (false, store) :=
  allow_empty rl store ip now h

/-- Evaluation of C6 on a whitespace-only key and a non-empty store. -/
theorem claim_C6_empty_key_witness :
    trimSpaceL ("  " : String).data = [] ∧
      allow (newRateLimiter 60) [("1.2.3.4", ⟨3, 0⟩)] "  " 5 =
        (false, [("1.2.3.4", ⟨3, 0⟩)]) :=
  ⟨by decide, claim_C6_empty_key (newRateLimiter 60) [("1.2.3.4", ⟨3, 0⟩)] "  " 5 (by decide)⟩

/-- C1: for the normalized capacity `C`, starting from an empty store,
the first `Allow` call creates the visitor with `tokens = C − 1` and
returns `true`, and `C + 1` consecutive immediate calls return exactly
`C` times `true` followed by one `false`. -/
theorem claim_C1_exact_budget (rpm : Int) (ip : String) (now : Int)
    (hip : trimSpaceL ip.data ≠ []) :
    1 ≤ (newRateLimiter rpm).capacity ∧
    allow (newRateLimiter rpm) [] ip now =
      (true, [(ip, ⟨(newRateLimiter rpm).capacity - 1, now⟩)]) ∧
    (allowN (newRateLimiter rpm) [] ip now ((newRateLimiter rpm).capacity.toNat + 1)).1 =
      List.replicate (newRateLimiter rpm).capacity.toNat true ++ [false] := by
  have hcap := newRateLimiter_capacity rpm
  have hstep : allow (newRateLimiter rpm) [] ip now =
      (true, [(ip, ⟨(newRateLimiter rpm).capacity - 1, now⟩)]) := by
    rw [allow_new now hip (show lookupV [] ip = none from rfl)
      (by rw [newRateLimiter_maxClients]; omega)]
  refine ⟨hcap.1, hstep, ?_⟩
  simp only [allowN]
  rw [hstep]
  dsimp only
  rw [allowN_drain hip ((newRateLimiter rpm).capacity.toNat)
    [(ip, ⟨(newRateLimiter rpm).capacity - 1, now⟩)] ((newRateLimiter rpm).capacity - 1)
    (by simp [lookupV]) (by omega)]
  have h1 : min (newRateLimiter rpm).capacity.toNat ((newRateLimiter rpm).capacity - 1).toNat =
      (newRateLimiter rpm).capacity.toNat - 1 := by omega
  have h2 : (newRateLimiter rpm).capacity.toNat - ((newRateLimiter rpm).capacity - 1).toNat = 1 :=
    by omega
  rw [h1, h2]
  have h3 : (newRateLimiter rpm).capacity.toNat = ((newRateLimiter rpm).capacity.toNat - 1) + 1 :=
    by omega
  conv_rhs => rw [h3, List.replicate_succ]
  simp

/-- Evaluation of C1 at capacity 3. -/
theorem claim_C1_exact_budget_witness :
    trimSpaceL ("1.2.3.4" : String).data ≠ [] ∧
      (allowN (newRateLimiter 3) [] "1.2.3.4" 0 4).1 = [true, true, true, false] := by
  refine ⟨by decide, ?_⟩
  have h := (claim_C1_exact_budget 3 "1.2.3.4" 0 (by decide)).2.2
  simpa using h

lemma allow_store_existing {rl : RateLimiter} {store : Store} {ip : String} {v : Visitor}
    (now : Int) (htrim : ¬ trimSpaceL ip.data = []) (hl : lookupV store ip = some v) :
    ∃ w, (allow rl store ip now).2 = updateV store ip w := by
  rw [allow_existing now htrim hl]
  dsimp only
  split_ifs <;> exact ⟨_, rfl⟩

/-- C3: when `maxClients > 0` and the store already holds `maxClients`
distinct keys, a new key is rejected with an ordinary `false` and no
entry is created; the store can never grow beyond `maxClients`; and the
decision for a key that already has a visitor never depends on the
cap. -/
theorem claim_C3_client_cap (rl : RateLimiter) (store : Store) (k : String) (now : Int) :
    (trimSpaceL k.data ≠ [] → lookupV store k = none → 0 < rl.maxClients →
      rl.maxClients ≤ (store.length : Int) → allow rl store k now = (false, store)) ∧
    (0 < rl.maxClients → (store.length : Int) ≤ rl.maxClients →
      ((allow rl store k now).2.length : Int) ≤ rl.maxClients) ∧
    (∀ v m, lookupV store k = some v →
      allow rl store k now = allow { rl with maxClients := m } store k now) := by
  refine ⟨fun hk hl hm hlen => allow_reject_cap now hk hl ⟨hm, hlen⟩, ?_, ?_⟩
  · intro hm hlen
    by_cases htrim : trimSpaceL k.data = []
    · rw [allow_empty rl store k now htrim]
      exact hlen
    · cases hl : lookupV store k with
      | none =>
        by_cases hcap : 0 < rl.maxClients ∧ rl.maxClients ≤ (store.length : Int)
        · rw [allow_reject_cap now htrim hl hcap]
          exact hlen
        · rw [allow_new now htrim hl hcap]
          push_neg at hcap
          have := hcap hm
          simp only [List.length_cons]
          omega
      | some v =>
        obtain ⟨w, hw⟩ := allow_store_existing now htrim hl
        rw [hw, length_updateV]
        exact hlen
  · intro v m hl
    by_cases htrim : trimSpaceL k.data = []
    · rw [allow_empty rl store k now htrim,
        allow_empty { rl with maxClients := m } store k now htrim]
    · rw [allow_existing now htrim hl, allow_existing now htrim hl]

/-- Evaluation of C3 with a two-entry store at the cap. -/
theorem claim_C3_client_cap_witness :
    allow { rate := 1000000000, capacity := 60, maxClients := 2 }
        [("1.1.1.1", ⟨3, 0⟩), ("2.2.2.2", ⟨4, 0⟩)] "3.3.3.3" 7 =
      (false, [("1.1.1.1", ⟨3, 0⟩), ("2.2.2.2", ⟨4, 0⟩)]) :=
  (claim_C3_client_cap { rate := 1000000000, capacity := 60, maxClients := 2 }
      [("1.1.1.1", ⟨3, 0⟩), ("2.2.2.2", ⟨4, 0⟩)] "3.3.3.3" 7).1
    (by decide) (by decide) (by decide) (by decide)

/-- The closed form of `Allow` for an existing visitor within the bucket
invariant: `addT = min (elapsed.tdiv rate) capacity` tokens are added,
the total is clamped to `capacity`, the stored `lastToken` advances by
`addT * rate`, and the decision is `0 < clamped total`. -/
lemma allow_existing_eq {rl : RateLimiter} {store : Store} {ip : String} {v : Visitor}
    {now : Int} (hip : ¬ trimSpaceL ip.data = []) (hl : lookupV store ip = some v)
    (hrate : 0 < rl.rate) (htok0 : 0 ≤ v.tokens) (htokc : v.tokens ≤ rl.capacity)
    (hel : 0 ≤ now - v.lastToken) :
    allow rl store ip now =
      (decide (0 < min (v.tokens + min ((now - v.lastToken).tdiv rl.rate) rl.capacity)
          rl.capacity),
       updateV store ip
         { tokens :=
             min (v.tokens + min ((now - v.lastToken).tdiv rl.rate) rl.capacity) rl.capacity -
               (if 0 < min (v.tokens + min ((now - v.lastToken).tdiv rl.rate) rl.capacity)
                   rl.capacity then 1 else 0),
           lastToken :=
             v.lastToken + min ((now - v.lastToken).tdiv rl.rate) rl.capacity * rl.rate }) := by
  have hd0 : 0 ≤ (now - v.lastToken).tdiv rl.rate := Int.tdiv_nonneg hel (le_of_lt hrate)
  rw [allow_existing now hip hl]
  dsimp only
  rw [if_pos hrate]
  by_cases hd : 0 < (now - v.lastToken).tdiv rl.rate
  · rw [if_pos hd]
    by_cases hcd : rl.capacity < (now - v.lastToken).tdiv rl.rate
    · rw [if_pos hcd]
      have hmin : min ((now - v.lastToken).tdiv rl.rate) rl.capacity = rl.capacity := by omega
      rw [hmin]
      by_cases hcl : rl.capacity < v.tokens + rl.capacity
      · rw [if_pos hcl]
        have hnt : min (v.tokens + rl.capacity) rl.capacity = rl.capacity := by omega
        rw [hnt]
        dsimp only
        by_cases hpos : 0 < rl.capacity
        · simp only [if_pos hpos, Prod.mk.injEq]
          exact ⟨(decide_eq_true hpos).symm, trivial⟩
        · simp only [if_neg hpos, Prod.mk.injEq]
          exact ⟨(decide_eq_false hpos).symm, by rw [sub_zero]⟩
      · rw [if_neg hcl]
        have hnt : min (v.tokens + rl.capacity) rl.capacity = v.tokens + rl.capacity := by omega
        rw [hnt]
        dsimp only
        by_cases hpos : 0 < v.tokens + rl.capacity
        · simp only [if_pos hpos, Prod.mk.injEq]
          exact ⟨(decide_eq_true hpos).symm, trivial⟩
        · simp only [if_neg hpos, Prod.mk.injEq]
          exact ⟨(decide_eq_false hpos).symm, by rw [sub_zero]⟩
    · rw [if_neg hcd]
      have hmin : min ((now - v.lastToken).tdiv rl.rate) rl.capacity
          = (now - v.lastToken).tdiv rl.rate := by omega
      rw [hmin]
      by_cases hcl : rl.capacity < v.tokens + (now - v.lastToken).tdiv rl.rate
      · rw [if_pos hcl]
        have hnt : min (v.tokens + (now - v.lastToken).tdiv rl.rate) rl.capacity
            = rl.capacity := by omega
        rw [hnt]
        dsimp only
        by_cases hpos : 0 < rl.capacity
        · simp only [if_pos hpos, Prod.mk.injEq]
          exact ⟨(decide_eq_true hpos).symm, trivial⟩
        · simp only [if_neg hpos, Prod.mk.injEq]
          exact ⟨(decide_eq_false hpos).symm, by rw [sub_zero]⟩
      · rw [if_neg hcl]
        have hnt : min (v.tokens + (now - v.lastToken).tdiv rl.rate) rl.capacity
            = v.tokens + (now - v.lastToken).tdiv rl.rate := by omega
        rw [hnt]
        dsimp only
        by_cases hpos : 0 < v.tokens + (now - v.lastToken).tdiv rl.rate
        · simp only [if_pos hpos, Prod.mk.injEq]
          exact ⟨(decide_eq_true hpos).symm, trivial⟩
        · simp only [if_neg hpos, Prod.mk.injEq]
          exact ⟨(decide_eq_false hpos).symm, by rw [sub_zero]⟩
  · rw [if_neg hd]
    have hdz : (now - v.lastToken).tdiv rl.rate = 0 := by omega
    rw [hdz]
    have hmin : min (0 : Int) rl.capacity = 0 := by omega
    rw [hmin]
    simp only [add_zero, zero_mul]
    have hnt : min v.tokens rl.capacity = v.tokens := by omega
    rw [hnt]
    by_cases hpos : 0 < v.tokens
    · simp only [if_pos hpos, Prod.mk.injEq]
      exact ⟨(decide_eq_true hpos).symm, trivial⟩
    · simp only [if_neg hpos, Prod.mk.injEq]
      exact ⟨(decide_eq_false hpos).symm, by rw [sub_zero]⟩

/-- C2: for an existing visitor with a positive rate, `Allow` refills by
`⌊elapsed / rate⌋` capped at `capacity` (never more than `capacity` in
one step), clamps the token count to `capacity`, advances the stored
`lastRefillAt` by exactly `tokensAdded * rate` rather than to `now`
(the sub-interval remainder is carried), and with an empty bucket a
wait of at least one `rate` interval yields `true` while a shorter wait
yields `false`. -/
theorem claim_C2_refill (rl : RateLimiter) (store : Store) (ip : String) (v : Visitor)
    (now : Int) (hip : ¬ trimSpaceL ip.data = []) (hl : lookupV store ip = some v)
    (hrate : 0 < rl.rate) (htok0 : 0 ≤ v.tokens) (htokc : v.tokens ≤ rl.capacity)
    (hel : 0 ≤ now - v.lastToken) :
    min ((now - v.lastToken).tdiv rl.rate) rl.capacity ≤ rl.capacity ∧
    ((allow rl store ip now).1 = true ↔
      0 < min (v.tokens + min ((now - v.lastToken).tdiv rl.rate) rl.capacity) rl.capacity) ∧
    lookupV (allow rl store ip now).2 ip = some
      { tokens :=
          min (v.tokens + min ((now - v.lastToken).tdiv rl.rate) rl.capacity) rl.capacity -
            (if 0 < min (v.tokens + min ((now - v.lastToken).tdiv rl.rate) rl.capacity)
                rl.capacity then 1 else 0),
        lastToken :=
          v.lastToken + min ((now - v.lastToken).tdiv rl.rate) rl.capacity * rl.rate } ∧
    (v.tokens = 0 → 1 ≤ rl.capacity →
      ((rl.rate ≤ now - v.lastToken → (allow rl store ip now).1 = true) ∧
       (now - v.lastToken < rl.rate → (allow rl store ip now).1 = false))) := by
  have heq := allow_existing_eq hip hl hrate htok0 htokc hel
  have hd0 : 0 ≤ (now - v.lastToken).tdiv rl.rate := Int.tdiv_nonneg hel (le_of_lt hrate)
  refine ⟨min_le_right _ _, ?_, ?_, ?_⟩
  · rw [heq]
    exact ⟨of_decide_eq_true, decide_eq_true⟩
  · rw [heq]
    exact lookupV_updateV_self store ip v _ hl
  · intro ht0 hcap1
    constructor
    · intro hwait
      have hd1 : 1 ≤ (now - v.lastToken).tdiv rl.rate := by
        rw [Int.tdiv_eq_ediv hel (le_of_lt hrate), Int.le_ediv_iff_mul_le hrate]
        omega
      rw [heq]
      exact decide_eq_true (by omega)
    · intro hwait
      have hdz : (now - v.lastToken).tdiv rl.rate = 0 := by
        rw [Int.tdiv_eq_ediv hel (le_of_lt hrate)]
        exact Int.ediv_eq_zero_of_lt hel hwait
      rw [heq]
      exact decide_eq_false (by omega)

/-- Evaluation of C2: an empty bucket at rate 1s refilled after exactly
one second admits one request and carries `lastToken = 10^9`. -/
theorem claim_C2_refill_witness :
    ¬ trimSpaceL ("k" : String).data = [] ∧
    lookupV [("k", Visitor.mk 0 0)] "k" = some (Visitor.mk 0 0) ∧
    0 < (newRateLimiter 60).rate ∧
    ((1 : Int) ≤ 60 ∧
     ((allow (newRateLimiter 60) [("k", Visitor.mk 0 0)] "k" 1000000000).1 = true ↔
       (0 : Int) < 1) ∧
     lookupV (allow (newRateLimiter 60) [("k", Visitor.mk 0 0)] "k" 1000000000).2 "k" =
       some (Visitor.mk 0 1000000000) ∧
     ((0 : Int) = 0 → (1 : Int) ≤ 60 →
       (((newRateLimiter 60).rate ≤ 1000000000 - 0 →
          (allow (newRateLimiter 60) [("k", Visitor.mk 0 0)] "k" 1000000000).1 = true) ∧
        (1000000000 - 0 < (newRateLimiter 60).rate →
          (allow (newRateLimiter 60) [("k", Visitor.mk 0 0)] "k" 1000000000).1 = false)))) :=
  ⟨by decide, by decide, by decide,
   claim_C2_refill (newRateLimiter 60) [("k", Visitor.mk 0 0)] "k" (Visitor.mk 0 0) 1000000000
     (by decide) (by decide) (by decide) (by decide) (by decide) (by decide)⟩

/-- C7 counterexample: with snapshot `["a","b","c"]`, cursor 2 and batch
size 2 the selected batch is just `["c"]` — the code truncates the batch
at the end of the snapshot instead of wrapping around, so a full-size
batch is not taken even though the snapshot holds at least
`cleanupBatchSize` keys. -/
theorem claim_C7_counterexample :
    cleanupSelect ["a", "b", "c"] 2 2 = (["c"], 0) ∧
    2 ≤ (["a", "b", "c"] : List String).length ∧
    (cleanupSelect ["a", "b", "c"] 2 2).1.length < 2 := by
  decide

/-- C7 amended: the batch of a sweep tick is the contiguous slice of the
snapshot starting at `cursor % n` and TRUNCATED at the snapshot's end —
its length is `min batchSize (n - start)`, which can be smaller than
`batchSize` even when `n ≥ batchSize`; only the cursor wraps, advancing
to `min (start + batchSize) n % n`. -/
theorem claim_C7_truncated_batch (ips : List String) (cursor batchSize : Nat)
    (hne : ips ≠ []) :
    (cleanupSelect ips cursor batchSize).1 =
      (ips.drop (cursor % ips.length)).take
        (min (cursor % ips.length + batchSize) ips.length - cursor % ips.length) ∧
    (cleanupSelect ips cursor batchSize).1.length =
      min batchSize (ips.length - cursor % ips.length) ∧
    (cleanupSelect ips cursor batchSize).2 =
      min (cursor % ips.length + batchSize) ips.length % ips.length := by
  have hn : 0 < ips.length := List.length_pos.mpr hne
  have hs : cursor % ips.length < ips.length := Nat.mod_lt _ hn
  unfold cleanupSelect
  dsimp only
  refine ⟨?_, ?_, ?_⟩
  · congr 1
    split_ifs with h <;> omega
  · simp only [List.length_take, List.length_drop]
    split_ifs with h <;> omega
  · congr 1
    split_ifs with h <;> omega

/-- Evaluation of the amended C7 at the counterexample's input. -/
theorem claim_C7_truncated_batch_witness :
    (["a", "b", "c"] : List String) ≠ [] ∧
    ((cleanupSelect ["a", "b", "c"] 2 2).1 = ["c"] ∧
     (cleanupSelect ["a", "b", "c"] 2 2).1.length = 1 ∧
     (cleanupSelect ["a", "b", "c"] 2 2).2 = 0) :=
  ⟨by decide, claim_C7_truncated_batch ["a", "b", "c"] 2 2 (by decide)⟩

/-- C8: in a sweep tick with cutoff `now - staleAfter`, a visitor whose
key is in the batch and whose `lastToken` is strictly older than the
cutoff is deleted from the store, while any visitor whose `lastToken`
lies within `staleAfter` of `now` survives the tick. -/
theorem claim_C8_eviction (store : Store) (batch : List String) (now staleAfter : Int)
    (k : String) (v : Visitor) (hl : lookupV store k = some v) :
    (k ∈ batch → v.lastToken < now - staleAfter →
      lookupV (cleanupBatch store batch (now - staleAfter)) k = none) ∧
    (now - staleAfter ≤ v.lastToken →
      lookupV (cleanupBatch store batch (now - staleAfter)) k = some v) := by
  constructor
  · intro hm hs
    exact cleanupBatch_stale batch store k _ v hm hl hs
  · intro hf
    exact cleanupBatch_fresh batch store k _ v hl (not_lt.mpr hf)

/-- Evaluation of C8: a stale visitor (`lastToken = 0`, cutoff 60) in
the batch is gone after the tick. -/
theorem claim_C8_eviction_witness :
    lookupV [("a", Visitor.mk 1 0), ("b", Visitor.mk 1 90)] "a" = some (Visitor.mk 1 0) ∧
    lookupV (cleanupBatch [("a", Visitor.mk 1 0), ("b", Visitor.mk 1 90)] ["a", "b"] (100 - 40))
      "a" = none :=
  ⟨by decide,
   (claim_C8_eviction [("a", Visitor.mk 1 0), ("b", Visitor.mk 1 90)] ["a", "b"] 100 40 "a"
      (Visitor.mk 1 0) (by decide)).1 (by decide) (by decide)⟩

/-- C4: with a trusted header configured and present, resolution uses
only the header (the network-layer address is irrelevant): the value is
split on commas, each part is trimmed, port-stripped and validated, the
left-most valid entry wins, a header with no valid entry resolves to
the empty key with no fallback, and the spec's three examples resolve
as stated. -/
theorem claim_C4_header_resolution (th hv ra ra2 : List Char) (hth : th ≠ []) :
    getClientIP th hv ra = getClientIP th hv ra2 ∧
    (getClientIP th hv ra ≠ [] → hv ≠ [] ∧
      ∃ l1 p l2, splitAndTrim hv ',' = l1 ++ p :: l2 ∧
        (∀ q ∈ l1, parseIPL (stripPort q) = []) ∧
        parseIPL (stripPort p) ≠ [] ∧
        getClientIP th hv ra = parseIPL (stripPort p)) ∧
    (hv ≠ [] → (∀ p ∈ splitAndTrim hv ',', parseIPL (stripPort p) = []) →
      getClientIP th hv ra = []) ∧
    getClientIPS "X" "203.0.113.5, 198.51.100.7" "9.9.9.9:80" = "203.0.113.5" ∧
    getClientIPS "X" "[2001:db8::1]:443" "9.9.9.9:80" = "2001:db8::1" ∧
    getClientIPS "X" "not-an-ip" "9.9.9.9:80" = "" := by
  refine ⟨?_, ?_, ?_, by decide, by decide, by decide⟩
  · by_cases hhv : hv = []
    · subst hhv
      rw [getClientIP_header_empty hth, getClientIP_header_empty hth]
    · rw [getClientIP_header hth hhv, getClientIP_header hth hhv]
  · intro hne
    by_cases hhv : hv = []
    · subst hhv
      rw [getClientIP_header_empty hth] at hne
      exact absurd rfl hne
    · rw [getClientIP_header hth hhv] at hne ⊢
      exact ⟨hhv, firstValid_spec _ hne⟩
  · intro hhv hall
    rw [getClientIP_header hth hhv]
    exact (firstValid_empty_iff _).mpr hall

/-- Evaluation of C4 on the spec's forwarded-chain example. -/
theorem claim_C4_header_resolution_witness :
    ("X" : String).data ≠ [] ∧
    (getClientIPS "X" "203.0.113.5, 198.51.100.7" "9.9.9.9:80" = "203.0.113.5" ∧
     getClientIPS "X" "[2001:db8::1]:443" "9.9.9.9:80" = "2001:db8::1" ∧
     getClientIPS "X" "not-an-ip" "9.9.9.9:80" = "") :=
  ⟨by decide,
   (claim_C4_header_resolution ("X" : String).data [] [] [] (by decide)).2.2.2⟩

/-- C10: with a trusted header configured but absent from the request
(its value is empty), the resolver returns the empty key and never
falls back to the network-layer peer address. -/
theorem claim_C10_mandatory_header (th ra : List Char) (hth : th ≠ []) :
    getClientIP th [] ra = [] :=
  getClientIP_header_empty hth

/-- Evaluation of C10 with a valid peer address that is ignored. -/
theorem claim_C10_mandatory_header_witness :
    ("X" : String).data ≠ [] ∧
    getClientIP ("X" : String).data [] ("9.9.9.9:80" : String).data = [] :=
  ⟨by decide,
   claim_C10_mandatory_header ("X" : String).data ("9.9.9.9:80" : String).data (by decide)⟩

/-- C9: every non-empty key the resolver produces is canonical: it
contains no bracket, no `%` zone separator, no space and no comma,
re-validating it with `parseIP` returns it unchanged, and re-resolving
it as a network-layer address returns it unchanged, so trivially
different spellings of one address always land on the same store
key. -/
theorem claim_C9_canonical_key (th hv ra r : List Char)
    (hr : getClientIP th hv ra = r) (hne : r ≠ []) :
    (∀ c ∈ r, c ≠ '[' ∧ c ≠ ']' ∧ c ≠ '%' ∧ c ≠ ' ' ∧ c ≠ ',') ∧
    parseIPL r = r ∧
    getClientIP [] [] r = r := by
  rcases getClientIP_shape th hv ra with h | ⟨s, h⟩
  · rw [hr] at h
    exact absurd h hne
  · rw [hr] at h
    rcases parseIPL_shape s with h2 | ⟨a, hva, h2⟩
    · rw [h2] at h
      exact absurd h hne
    · rw [h2] at h
      subst h
      refine ⟨?_, parseIPL_printAddr hva, getClientIP_canonical hva⟩
      intro c hc
      have hic := mem_printAddr hva hc
      exact ⟨ipChar_ne hic (by decide), ipChar_ne hic (by decide), ipChar_ne hic (by decide),
        ipChar_ne hic (by decide), ipChar_ne hic (by decide)⟩

/-- Evaluation of C9: a bracketed, uppercase, with-port spelling
resolves to the canonical lowercase key, which is a fixed point of the
resolver. -/
theorem claim_C9_canonical_key_witness :
    getClientIP ("X" : String).data ("[2001:DB8::1]:443" : String).data
      ("9.9.9.9" : String).data = ("2001:db8::1" : String).data ∧
    (("2001:db8::1" : String).data ≠ []) ∧
    ((∀ c ∈ ("2001:db8::1" : String).data,
        c ≠ '[' ∧ c ≠ ']' ∧ c ≠ '%' ∧ c ≠ ' ' ∧ c ≠ ',') ∧
     parseIPL ("2001:db8::1" : String).data = ("2001:db8::1" : String).data ∧
     getClientIP [] [] ("2001:db8::1" : String).data = ("2001:db8::1" : String).data) :=
  ⟨by decide, by decide,
   claim_C9_canonical_key ("X" : String).data ("[2001:DB8::1]:443" : String).data
     ("9.9.9.9" : String).data ("2001:db8::1" : String).data (by decide) (by decide)⟩
